import Mathlib

/-!
Verification development for the robolina case-preserving replacement engine
(`robolina.hpp` together with the embedded `cpptokenfinder.hpp`).

Strings are modelled as lists of natural-number code units (`List Nat`).
The embedding mirrors the C++ sources:

* `search_tree_entry`, `add_token_tree`, `match_len`, `find_token_from`
  model the search tree of `cpptokenfinder::token_finder`
  (`add_token_implementation` / `find_token_implementation`).
* `token_finder_data`, `fd_find_token`, `fd_add_token` model
  `robolina::case_preserve_replacer::token_finder_data`.
* `split_text`, `to_normal_text`, ..., `to_upper_kebab_case` model the
  casing analyzer of `case_preserve_replacer`.
* `add_replacement`, `far_loop`, `far_events`, `find_and_replace` model
  rule installation and the dual-finder scan loop.

The single-pointer `find_token` overload used by the scan loop wraps the
input in `null_terminated_string_wrapper`, so each search only sees the
code units up to the first zero; this is modelled with `List.takeWhile`.
-/

/-- ASCII classification, mirroring `std::islower` on `unsigned char` in the C locale. -/
def ascii_islower (c : Nat) : Bool := 97 ≤ c && c ≤ 122

/-- ASCII classification, mirroring `std::isupper` on `unsigned char` in the C locale. -/
def ascii_isupper (c : Nat) : Bool := 65 ≤ c && c ≤ 90

/-- ASCII classification, mirroring `std::isdigit` on `unsigned char` in the C locale. -/
def ascii_isdigit (c : Nat) : Bool := 48 ≤ c && c ≤ 57

/-- ASCII classification, mirroring `std::isalnum` on `unsigned char` in the C locale. -/
def ascii_isalnum (c : Nat) : Bool := ascii_isdigit c || ascii_islower c || ascii_isupper c

/-- ASCII case fold, mirroring `std::tolower` on `unsigned char` in the C locale. -/
def ascii_tolower (c : Nat) : Nat := if ascii_isupper c then c + 32 else c

/-- ASCII upcase, mirroring `std::toupper` on `unsigned char` in the C locale. -/
def ascii_toupper (c : Nat) : Nat := if ascii_islower c then c - 32 else c

/-- `cpptokenfinder::token_finder_default_comparer`: plain equality of code units. -/
def token_finder_default_comparer (a b : Nat) : Bool := a == b

/-- `robolina::case_preserve_replacer::token_finder_ignore_case_comparer`:
equality after `std::tolower` on both sides. -/
def token_finder_ignore_case_comparer (a b : Nat) : Bool :=
  ascii_tolower a == ascii_tolower b

/-- A node of the search tree (`cpptokenfinder::token_finder::search_tree_entry`):
a character, an optional token id (`none` models `c_invalid_token_id`), and the
ordered child list `next_entries`. -/
inductive search_tree_entry : Type where
  | mk (character : Nat) (token_id : Option Nat) (next_entries : List search_tree_entry)

/-- The `character` field of a search tree entry. -/
def search_tree_entry.character : search_tree_entry → Nat
  | .mk c _ _ => c

/-- The `token_id` field of a search tree entry. -/
def search_tree_entry.token_id : search_tree_entry → Option Nat
  | .mk _ t _ => t

/-- The `next_entries` field of a search tree entry. -/
def search_tree_entry.next_entries : search_tree_entry → List search_tree_entry
  | .mk _ _ n => n

/-- Locate the first entry of a level whose raw `character` equals `c`, splitting the
level into the entries before it, the entry itself, and the entries after it.
This mirrors the linear scan of `add_token_implementation`, which compares
characters with `==` and never uses the comparer when inserting. -/
def split_at_char : List search_tree_entry → Nat → Option (List search_tree_entry × search_tree_entry × List search_tree_entry)
  | [], _ => none
  | e :: rest, c =>
    if e.character = c then some ([], e, rest)
    else (split_at_char rest c).map (fun pes => (e :: pes.1, pes.2.1, pes.2.2))

/-- Error kinds raised by the modelled engine (`std::invalid_argument` sites). -/
inductive rep_error : Type where
  | invalid_argument
  | duplicate_token
  deriving DecidableEq

/-- `cpptokenfinder::token_finder::add_token_implementation`: insert a key into a
level of the search tree, assigning `id` to the node reached by the last
character.  Raises `duplicate_token` when that node already carries a token id
(`"Failed to add token. It has already been added."`).  New entries are appended
at the back of the level, as `emplace_back` does. -/
def add_token_tree : List search_tree_entry → List Nat → Nat → Except rep_error (List search_tree_entry)
  | entries, [], _ => .ok entries
  | entries, [c], id =>
    match split_at_char entries c with
    | some (pre, e, post) =>
      match e.token_id with
      | none => .ok (pre ++ search_tree_entry.mk e.character (some id) e.next_entries :: post)
      | some _ => .error .duplicate_token
    | none => .ok (entries ++ [search_tree_entry.mk c (some id) []])
  | entries, c :: c2 :: rest, id =>
    match split_at_char entries c with
    | some (pre, e, post) =>
      (add_token_tree e.next_entries (c2 :: rest) id).map
        (fun next2 => pre ++ search_tree_entry.mk e.character e.token_id next2 :: post)
    | none =>
      (add_token_tree [] (c2 :: rest) id).map
        (fun sub => entries ++ [search_tree_entry.mk c none sub])

/-- The linear scan of a level during search: the first entry whose `character`
matches the text character under the comparer (`find_token_implementation`'s
inner loop over `*p_current_search_tree_entry_list`). -/
def find_entry (cmp : Nat → Nat → Bool) : List search_tree_entry → Nat → Option search_tree_entry
  | [], _ => none
  | e :: rest, c => if cmp e.character c then some e else find_entry cmp rest c

/-- The trie descent of `find_token_implementation` from a fixed start position:
returns the length of the longest match and the token id recorded deepest along
the matched path, if any token node is passed. -/
def match_len (cmp : Nat → Nat → Bool) : List search_tree_entry → List Nat → Option (Nat × Nat)
  | _, [] => none
  | entries, c :: rest =>
    match find_entry cmp entries c with
    | none => none
    | some e =>
      match match_len cmp e.next_entries rest with
      | some li => some (li.1 + 1, li.2)
      | none => e.token_id.map (fun id => (1, id))

/-- `find_token_implementation`: scan the text left to right; at the first
position where the descent records a token, return (begin offset, match length,
token id). -/
def find_token_from (cmp : Nat → Nat → Bool) (root : List search_tree_entry) : List Nat → Option (Nat × Nat × Nat)
  | [] => none
  | c :: rest =>
    match match_len cmp root (c :: rest) with
    | some li => some (0, li.1, li.2)
    | none => (find_token_from cmp root rest).map (fun bli => (bli.1 + 1, bli.2.1, bli.2.2))

/-- `robolina::case_preserve_replacer::replacement_entry`. -/
structure replacement_entry : Type where
  replacement_text : List Nat
  match_whole_word : Bool

instance : Inhabited replacement_entry := ⟨⟨[], false⟩⟩

/-- `robolina::case_preserve_replacer::token_finder_data`: the search tree plus
the parallel array of replacement entries (token ids are indices into it). -/
structure token_finder_data : Type where
  root : List search_tree_entry
  replacement_entries : List replacement_entry

/-- An empty pattern set. -/
def empty_finder : token_finder_data := ⟨[], []⟩

/-- One pass of `token_finder_data::find_token`'s retry loop, with explicit fuel.
The raw search runs on the null-terminated view of the text after `cur`
(`null_terminated_string_wrapper` stops at the first zero code unit, modelled by
`takeWhile`).  A candidate whose rule has `match_whole_word` set and whose
boundary check fails is discarded and the search restarts from the candidate's
end (`context.next_token()` sets `current = token_end`). -/
def fd_find_token_go (cmp : Nat → Nat → Bool) (fd : token_finder_data) (full : List Nat) : Nat → Nat → Option (Nat × Nat × Nat)
  | 0, _ => none
  | fuel + 1, cur =>
    match find_token_from cmp fd.root ((full.drop cur).takeWhile (fun c => c != 0)) with
    | none => none
    | some (b, l, id) =>
      if (fd.replacement_entries.getD id default).match_whole_word then
        if (decide (0 < cur + b) && ascii_isalnum (full.getD (cur + b - 1) 0)) ||
           (decide (cur + b + l < full.length) && ascii_isalnum (full.getD (cur + b + l) 0)) then
          fd_find_token_go cmp fd full fuel (cur + b + l)
        else
          some (cur + b, cur + b + l, id)
      else
        some (cur + b, cur + b + l, id)

/-- `token_finder_data::find_token`: the retry loop with enough fuel to run to
completion on any input (each retry strictly advances the cursor). -/
def fd_find_token (cmp : Nat → Nat → Bool) (fd : token_finder_data) (full : List Nat) (cur : Nat) : Option (Nat × Nat × Nat) :=
  fd_find_token_go cmp fd full (full.length + 1) cur

/-- `token_finder_data::add_token`: first probe for the key with the set's own
comparer (the string-overload `find_token`, which is bounded by the string and
has no null-terminator logic); if the probe finds a hit spanning the whole key,
return the unchanged set and `false` (the variant-dedup path).  Otherwise insert
the key (an empty key raises `invalid_argument` inside
`cpptokenfinder::add_token`) and append the replacement entry. -/
def fd_add_token (cmp : Nat → Nat → Bool) (fd : token_finder_data) (key repl : List Nat) (ww : Bool) : Except rep_error (token_finder_data × Bool) :=
  match find_token_from cmp fd.root key with
  | some (b, l, _) =>
    if b = 0 ∧ b + l = key.length then .ok (fd, false)
    else
      if key = [] then .error .invalid_argument
      else
        (add_token_tree fd.root key fd.replacement_entries.length).map
          (fun root2 => (⟨root2, fd.replacement_entries ++ [⟨repl, ww⟩]⟩, true))
  | none =>
    if key = [] then .error .invalid_argument
    else
      (add_token_tree fd.root key fd.replacement_entries.length).map
        (fun root2 => (⟨root2, fd.replacement_entries ++ [⟨repl, ww⟩]⟩, true))

/-- `robolina::case_mode`. -/
inductive case_mode : Type where
  | preserve_case
  | ignore_case
  | match_case
  deriving DecidableEq

/-- `case_preserve_replacer::split_text`: split at spaces, hyphens and
underscores (discarding the delimiter) and at a lowercase-to-uppercase
transition.  The C++ code tests `*(p-1)`; whenever `current_word` is non-empty
the previous text character equals the last character appended to
`current_word`, so the model reads `cw.getLast?`. -/
def split_text_go (cw : List Nat) (acc : List (List Nat)) : List Nat → List (List Nat)
  | [] => if cw.isEmpty then acc else acc ++ [cw]
  | c :: rest =>
    if c = 32 || c = 45 || c = 95 then
      split_text_go [] (if cw.isEmpty then acc else acc ++ [cw]) rest
    else
      if !cw.isEmpty && ascii_islower (cw.getLastD 0) && ascii_isupper c then
        split_text_go [c] (acc ++ [cw]) rest
      else
        split_text_go (cw ++ [c]) acc rest

/-- `case_preserve_replacer::split_text` on a whole pattern. -/
def split_text (text : List Nat) : List (List Nat) :=
  split_text_go [] [] text

/-- `case_preserve_replacer::to_normal_text`: join the words unchanged, adding a
space before a word whenever the accumulated result is non-empty. -/
def to_normal_text (words : List (List Nat)) : List Nat :=
  words.foldl (fun res w => (if res.isEmpty then res else res ++ [32]) ++ w) []

/-- `case_preserve_replacer::to_camel_case`: skip empty words; the first kept
word starts lowercase, later words start uppercase; the rest of each word is
lowercased. -/
def to_camel_case_go : List Nat × Bool → List (List Nat) → List Nat × Bool
  | acc, [] => acc
  | acc, w :: rest =>
    match w with
    | [] => to_camel_case_go acc rest
    | c :: cs =>
      to_camel_case_go
        (acc.1 ++ (if acc.2 then ascii_tolower c else ascii_toupper c) :: cs.map ascii_tolower, false)
        rest

/-- `case_preserve_replacer::to_camel_case`. -/
def to_camel_case (words : List (List Nat)) : List Nat :=
  (to_camel_case_go ([], true) words).1

/-- `case_preserve_replacer::to_pascal_case`: skip empty words; every kept word
starts uppercase, the rest lowercased. -/
def to_pascal_case (words : List (List Nat)) : List Nat :=
  words.foldl
    (fun res w =>
      match w with
      | [] => res
      | c :: cs => res ++ ascii_toupper c :: cs.map ascii_tolower)
    []

/-- `case_preserve_replacer::to_lowercase`. -/
def to_lowercase (words : List (List Nat)) : List Nat :=
  words.foldl (fun res w => res ++ w.map ascii_tolower) []

/-- `case_preserve_replacer::to_uppercase`. -/
def to_uppercase (words : List (List Nat)) : List Nat :=
  words.foldl (fun res w => res ++ w.map ascii_toupper) []

/-- `case_preserve_replacer::to_snake_case`: skip empty words, join with `_`,
casing each character by the flag. -/
def to_separator_case_go (sep : Nat) (f : Nat → Nat) : List Nat × Bool → List (List Nat) → List Nat × Bool
  | acc, [] => acc
  | acc, w :: rest =>
    match w with
    | [] => to_separator_case_go sep f acc rest
    | c :: cs =>
      to_separator_case_go sep f
        ((if acc.2 then acc.1 else acc.1 ++ [sep]) ++ (f c :: cs.map f), false)
        rest

/-- `case_preserve_replacer::to_snake_case`. -/
def to_snake_case (words : List (List Nat)) (uppercase : Bool) : List Nat :=
  (to_separator_case_go 95 (if uppercase then ascii_toupper else ascii_tolower) ([], true) words).1

/-- `case_preserve_replacer::to_lower_snake_case`. -/
def to_lower_snake_case (words : List (List Nat)) : List Nat := to_snake_case words false

/-- `case_preserve_replacer::to_upper_snake_case`. -/
def to_upper_snake_case (words : List (List Nat)) : List Nat := to_snake_case words true

/-- `case_preserve_replacer::to_kebab_case`. -/
def to_kebab_case (words : List (List Nat)) (uppercase : Bool) : List Nat :=
  (to_separator_case_go 45 (if uppercase then ascii_toupper else ascii_tolower) ([], true) words).1

/-- `case_preserve_replacer::to_lower_kebab_case`. -/
def to_lower_kebab_case (words : List (List Nat)) : List Nat := to_kebab_case words false

/-- `case_preserve_replacer::to_upper_kebab_case`. -/
def to_upper_kebab_case (words : List (List Nat)) : List Nat := to_kebab_case words true

/-- `robolina::case_preserve_replacer`: the exact pattern set `finder` and the
case-insensitive pattern set `i_finder`. -/
structure case_preserve_replacer : Type where
  finder : token_finder_data
  i_finder : token_finder_data

/-- A freshly constructed replacer with no rules. -/
def empty_replacer : case_preserve_replacer := ⟨empty_finder, empty_finder⟩

/-- The list of the nine casing renderings of a word list, in the order
`add_replacement` inserts them. -/
def render_list (ws : List (List Nat)) : List (List Nat) :=
  [to_normal_text ws, to_camel_case ws, to_pascal_case ws, to_lowercase ws,
   to_uppercase ws, to_lower_snake_case ws, to_upper_snake_case ws,
   to_lower_kebab_case ws, to_upper_kebab_case ws]

/-- One variant insertion of the preserve-case path: thread the exact pattern
set through `fd_add_token`, discarding the dedup flag as the C++ caller does. -/
def add_variant (fdE : Except rep_error token_finder_data) (kv : List Nat × List Nat) (ww : Bool) : Except rep_error token_finder_data :=
  match fdE with
  | .error e => .error e
  | .ok fd =>
    match fd_add_token token_finder_default_comparer fd kv.1 kv.2 ww with
    | .error e => .error e
    | .ok p => .ok p.1

/-- `case_preserve_replacer::add_replacement`.  A null pointer cannot be
modelled; the empty key covers the `*text_to_find == 0` check.  The preserve
branch splits both strings and inserts the nine renderings into the exact set;
`ignore_case` inserts into the fold set, `match_case` into the exact set. -/
def add_replacement (r : case_preserve_replacer) (text_to_find replacement_text : List Nat) (mode : case_mode) (match_whole_word : Bool) : Except rep_error case_preserve_replacer :=
  if text_to_find.isEmpty then .error .invalid_argument
  else
    match mode with
    | .preserve_case =>
      let words_to_find := split_text text_to_find
      if words_to_find.isEmpty then .error .invalid_argument
      else
        let words_of_replacement := split_text replacement_text
        (((render_list words_to_find).zip (render_list words_of_replacement)).foldl
            (fun acc kv => add_variant acc kv match_whole_word) (.ok r.finder)).map
          (fun fd => { r with finder := fd })
    | .ignore_case =>
      (fd_add_token token_finder_ignore_case_comparer r.i_finder text_to_find replacement_text match_whole_word).map
        (fun p => { r with i_finder := p.1 })
    | .match_case =>
      (fd_add_token token_finder_default_comparer r.finder text_to_find replacement_text match_whole_word).map
        (fun p => { r with finder := p.1 })

/-- `robolina::case_preserve_replacer::search_context`: the cursor and the
cached candidate token (begin, end, id), `none` when no token is cached. -/
structure search_context : Type where
  current : Nat
  token : Option (Nat × Nat × Nat)

/-- `search_context::next_token`: move the cursor to the end of the cached
token, if any. -/
def next_token (c : search_context) : search_context :=
  match c.token with
  | some (_, te, _) => { c with current := te }
  | none => c

/-- `search_context::advance_current_to`: move the cursor to `n`, dropping the
cached token when it begins before the new cursor. -/
def advance_current_to (c : search_context) (n : Nat) : search_context :=
  { current := n
    token :=
      match c.token with
      | some (tb, te, id) => if tb < n then none else some (tb, te, id)
      | none => none }

/-- `search_context::overlaps`: interval overlap or equal begin positions. -/
def ctx_overlaps (a b : search_context) : Bool :=
  match a.token, b.token with
  | some (ab, ae, _), some (bb, be, _) =>
    (decide (ab < be) && decide (bb < ae)) || decide (ab = bb)
  | _, _ => false

/-- One span handed to the sink: either a literal span `[b, e)` of the input, or
the replacement text emitted for the consumed span `[b, e)`. -/
inductive sink_event : Type where
  | literal (b e : Nat)
  | replacement (b e : Nat) (text : List Nat)

/-- The begin position of the span an event covers. -/
def ev_begin : sink_event → Nat
  | .literal b _ => b
  | .replacement b _ _ => b

/-- The end position of the span an event covers. -/
def ev_end : sink_event → Nat
  | .literal _ e => e
  | .replacement _ e _ => e

/-- The bytes an event writes to the sink. -/
def render (full : List Nat) : sink_event → List Nat
  | .literal b e => (full.drop b).take (e - b)
  | .replacement _ _ t => t

/-- `search_context::write`: the literal span before the token followed by the
replacement text of the token's rule. -/
def write_events (fd : token_finder_data) (c : search_context) : List sink_event :=
  match c.token with
  | some (tb, te, id) =>
    [.literal c.current tb,
     .replacement tb te (fd.replacement_entries.getD id default).replacement_text]
  | none => []

/-- The dual-finder loop of `case_preserve_replacer::find_and_replace`, with
explicit fuel.  Mirrors the C++ `for(;;)` body branch for branch; returns the
final contexts and the accumulated sink events, or `none` if the fuel runs out
(which never happens with the fuel used by `far_events`). -/
def far_loop (fd ifd : token_finder_data) (full : List Nat) : Nat → search_context → search_context → List sink_event → Option (search_context × search_context × List sink_event)
  | 0, _, _, _ => none
  | fuel + 1, c, ic, acc =>
    match c.token, ic.token with
    | none, none => some (c, ic, acc)
    | some (ctb, _, _), some (itb, _, _) =>
      let ov := ctx_overlaps c ic
      if ctb < itb then
        let acc2 := acc ++ write_events fd c
        let c1 := next_token c
        let c2 : search_context := ⟨c1.current, fd_find_token token_finder_default_comparer fd full c1.current⟩
        let ic1 := advance_current_to ic c2.current
        let ic2 :=
          if ov then
            let t := next_token ic1
            (⟨t.current, fd_find_token token_finder_ignore_case_comparer ifd full t.current⟩ : search_context)
          else ic1
        far_loop fd ifd full fuel c2 ic2 acc2
      else
        let acc2 := acc ++ write_events ifd ic
        let ic1 := next_token ic
        let ic2 : search_context := ⟨ic1.current, fd_find_token token_finder_ignore_case_comparer ifd full ic1.current⟩
        let c1 := advance_current_to c ic2.current
        let c2 :=
          if ov then
            let t := next_token c1
            (⟨t.current, fd_find_token token_finder_default_comparer fd full t.current⟩ : search_context)
          else c1
        far_loop fd ifd full fuel c2 ic2 acc2
    | some _, none =>
      let acc2 := acc ++ write_events fd c
      let c1 := next_token c
      let c2 : search_context := ⟨c1.current, fd_find_token token_finder_default_comparer fd full c1.current⟩
      far_loop fd ifd full fuel c2 ic acc2
    | none, some _ =>
      let acc2 := acc ++ write_events ifd ic
      let ic1 := next_token ic
      let ic2 : search_context := ⟨ic1.current, fd_find_token token_finder_ignore_case_comparer ifd full ic1.current⟩
      far_loop fd ifd full fuel c ic2 acc2

/-- `case_preserve_replacer::find_and_replace(text, text_size, sink)` as the
list of sink events: empty input returns immediately; otherwise both contexts
are primed, the dual-finder loop runs, and the remaining tail after the larger
cursor is emitted. -/
def far_events (r : case_preserve_replacer) (full : List Nat) : List sink_event :=
  if full.length = 0 then []
  else
    match far_loop r.finder r.i_finder full (2 * full.length + 2)
        ⟨0, fd_find_token token_finder_default_comparer r.finder full 0⟩
        ⟨0, fd_find_token token_finder_ignore_case_comparer r.i_finder full 0⟩ [] with
    | some (c, ic, acc) =>
      let last := if c.current < ic.current then ic.current else c.current
      if last < full.length then acc ++ [.literal last full.length] else acc
    | none => []

/-- `case_preserve_replacer::find_and_replace`: the concatenation of all spans
written to the sink. -/
def find_and_replace (r : case_preserve_replacer) (full : List Nat) : List Nat :=
  ((far_events r full).map (render full)).flatten

/-! ### Basic bounds for the raw token search -/

/-- `takeWhile` never lengthens a list. -/
theorem takeWhile_len_le (p : Nat → Bool) : ∀ l : List Nat, (l.takeWhile p).length ≤ l.length := by
  intro l
  induction l with
  | nil => simp [List.takeWhile]
  | cons x xs ih =>
    rw [List.takeWhile]
    cases p x
    · simp
    · simpa using Nat.succ_le_succ ih

/-- A successful trie descent consumes at least one and at most all characters. -/
theorem match_len_bounds (cmp : Nat → Nat → Bool) :
    ∀ (s : List Nat) (entries : List search_tree_entry) (l id : Nat),
      match_len cmp entries s = some (l, id) → 1 ≤ l ∧ l ≤ s.length := by
  intro s
  induction s with
  | nil => intro entries l id h; simp [match_len] at h
  | cons c rest ih =>
    intro entries l id h
    rw [match_len] at h
    split at h
    · exact absurd h (by simp)
    · rename_i e hfe
      split at h
      · rename_i li hml
        simp only [Option.some.injEq, Prod.mk.injEq] at h
        obtain ⟨hl, _⟩ := h
        obtain ⟨h1, h2⟩ := ih e.next_entries li.1 li.2 (by rw [hml])
        simp only [List.length_cons]
        omega
      · rename_i hml
        cases hti : e.token_id with
        | none => rw [hti] at h; exact absurd h (by simp)
        | some id0 =>
          rw [hti] at h
          simp at h
          obtain ⟨hl, _⟩ := h
          simp only [List.length_cons]
          omega

/-- A successful scan reports a match of positive length inside the text. -/
theorem find_token_from_bounds (cmp : Nat → Nat → Bool) (root : List search_tree_entry) :
    ∀ (s : List Nat) (b l id : Nat),
      find_token_from cmp root s = some (b, l, id) → 1 ≤ l ∧ b + l ≤ s.length := by
  intro s
  induction s with
  | nil => intro b l id h; simp [find_token_from] at h
  | cons c rest ih =>
    intro b l id h
    rw [find_token_from] at h
    split at h
    · rename_i li hml
      simp only [Option.some.injEq, Prod.mk.injEq] at h
      obtain ⟨hb, hl, _⟩ := h
      obtain ⟨h1, h2⟩ := match_len_bounds cmp (c :: rest) root li.1 li.2 hml
      simp only [List.length_cons] at h2 ⊢
      omega
    · rename_i hml
      cases hrec : find_token_from cmp root rest with
      | none => rw [hrec] at h; exact absurd h (by simp)
      | some bli =>
        obtain ⟨b1, l1, id1⟩ := bli
        rw [hrec] at h
        simp at h
        obtain ⟨hb, hl, _⟩ := h
        obtain ⟨h1, h2⟩ := ih b1 l1 id1 hrec
        simp only [List.length_cons]
        omega

/-- The retry loop of `find_token` only returns candidates that start at or
after the cursor, are non-empty, and end within the buffer. -/
theorem fd_find_token_go_some (cmp : Nat → Nat → Bool) (fd : token_finder_data) (full : List Nat) :
    ∀ (fuel cur tb te id : Nat),
      fd_find_token_go cmp fd full fuel cur = some (tb, te, id) →
      cur ≤ tb ∧ tb < te ∧ te ≤ full.length := by
  intro fuel
  induction fuel with
  | zero => intro cur tb te id h; simp [fd_find_token_go] at h
  | succ fuel ih =>
    intro cur tb te id h
    rw [fd_find_token_go] at h
    split at h
    · exact absurd h (by simp)
    · rename_i b l id0 hraw
      obtain ⟨h1, h2⟩ := find_token_from_bounds cmp fd.root _ b l id0 hraw
      have hlen : ((full.drop cur).takeWhile (fun c => c != 0)).length ≤ full.length - cur := by
        calc ((full.drop cur).takeWhile (fun c => c != 0)).length
            ≤ (full.drop cur).length := takeWhile_len_le _ _
          _ = full.length - cur := List.length_drop ..
      have hbound : cur + b + l ≤ full.length := by omega
      split at h
      · split at h
        · have := ih (cur + b + l) tb te id h
          omega
        · simp only [Option.some.injEq, Prod.mk.injEq] at h
          omega
      · simp only [Option.some.injEq, Prod.mk.injEq] at h
        omega

/-- The result of the retry loop does not depend on the fuel once the fuel
exceeds the remaining length. -/
theorem fd_find_token_go_irrel (cmp : Nat → Nat → Bool) (fd : token_finder_data) (full : List Nat) :
    ∀ (f g cur : Nat), full.length - cur < f → full.length - cur < g →
      fd_find_token_go cmp fd full f cur = fd_find_token_go cmp fd full g cur := by
  intro f
  induction f with
  | zero => intro g cur hf hg; omega
  | succ f ih =>
    intro g cur hf hg
    cases g with
    | zero => omega
    | succ g =>
      rw [fd_find_token_go, fd_find_token_go]
      cases hraw : find_token_from cmp fd.root ((full.drop cur).takeWhile (fun c => c != 0)) with
      | none => rfl
      | some bli =>
        obtain ⟨b, l, id0⟩ := bli
        obtain ⟨h1, h2⟩ := find_token_from_bounds cmp fd.root _ b l id0 hraw
        have hlen : ((full.drop cur).takeWhile (fun c => c != 0)).length ≤ full.length - cur := by
          calc ((full.drop cur).takeWhile (fun c => c != 0)).length
              ≤ (full.drop cur).length := takeWhile_len_le _ _
            _ = full.length - cur := List.length_drop ..
        have hcur : cur < full.length := by omega
        simp only
        by_cases hww : (fd.replacement_entries.getD id0 default).match_whole_word = true
        · rw [if_pos hww, if_pos hww]
          by_cases hfail :
              ((decide (0 < cur + b) && ascii_isalnum (full.getD (cur + b - 1) 0)) ||
               (decide (cur + b + l < full.length) && ascii_isalnum (full.getD (cur + b + l) 0))) = true
          · rw [if_pos hfail, if_pos hfail]
            exact ih g (cur + b + l) (by omega) (by omega)
          · rw [if_neg hfail, if_neg hfail]
        · rw [if_neg hww, if_neg hww]

/-- Bounds for `fd_find_token` itself. -/
theorem fd_find_token_some (cmp : Nat → Nat → Bool) (fd : token_finder_data) (full : List Nat)
    (cur tb te id : Nat) (h : fd_find_token cmp fd full cur = some (tb, te, id)) :
    cur ≤ tb ∧ tb < te ∧ te ≤ full.length :=
  fd_find_token_go_some cmp fd full (full.length + 1) cur tb te id h

/-! ### The event list of a scan tiles the input -/

/-- `tiles lo evs hi`: the spans of `evs` are consecutive, starting at `lo` and
ending at `hi`. -/
def tiles : Nat → List sink_event → Nat → Prop
  | lo, [], hi => lo = hi
  | lo, ev :: rest, hi => ev_begin ev = lo ∧ lo ≤ ev_end ev ∧ tiles (ev_end ev) rest hi

/-- Consecutive tilings concatenate. -/
theorem tiles_append : ∀ (evs1 : List sink_event) (lo mid hi : Nat) (evs2 : List sink_event),
    tiles lo evs1 mid → tiles mid evs2 hi → tiles lo (evs1 ++ evs2) hi := by
  intro evs1
  induction evs1 with
  | nil =>
    intro lo mid hi evs2 h1 h2
    rw [tiles] at h1
    simpa [h1] using h2
  | cons ev rest ih =>
    intro lo mid hi evs2 h1 h2
    rw [tiles] at h1
    exact ⟨h1.1, h1.2.1, ih _ _ _ _ h1.2.2 h2⟩

/-- A tiling runs left to right. -/
theorem tiles_le : ∀ (evs : List sink_event) (lo hi : Nat), tiles lo evs hi → lo ≤ hi := by
  intro evs
  induction evs with
  | nil => intro lo hi h; rw [tiles] at h; omega
  | cons ev rest ih =>
    intro lo hi h
    rw [tiles] at h
    have := ih _ _ h.2.2
    omega

/-- Every event of a tiling lies between the bounds. -/
theorem tiles_mem_bounds : ∀ (evs : List sink_event) (lo hi : Nat), tiles lo evs hi →
    ∀ ev ∈ evs, lo ≤ ev_begin ev ∧ ev_begin ev ≤ ev_end ev ∧ ev_end ev ≤ hi := by
  intro evs
  induction evs with
  | nil => intro lo hi _ ev hmem; simp at hmem
  | cons ev0 rest ih =>
    intro lo hi h ev hmem
    rw [tiles] at h
    rcases List.mem_cons.mp hmem with heq | hmem2
    · subst heq
      have := tiles_le rest (ev_end ev) hi h.2.2
      omega
    · have := ih _ _ h.2.2 ev hmem2
      omega

/-- Events of a tiling are pairwise disjoint, in order. -/
theorem tiles_pairwise : ∀ (evs : List sink_event) (lo hi : Nat), tiles lo evs hi →
    evs.Pairwise (fun a b => ev_end a ≤ ev_begin b) := by
  intro evs
  induction evs with
  | nil => intro lo hi _; exact List.Pairwise.nil
  | cons ev rest ih =>
    intro lo hi h
    rw [tiles] at h
    refine List.Pairwise.cons ?_ (ih _ _ h.2.2)
    intro ev2 hmem
    exact (tiles_mem_bounds rest _ hi h.2.2 ev2 hmem).1

/-! ### Single steps of the dual-finder loop -/

/-- When both contexts hold a candidate and the exact candidate starts strictly
earlier, the loop writes the literal prefix and the exact set's replacement,
re-finds on the exact context, and advances the fold context. -/
theorem far_loop_step_exact (fd ifd : token_finder_data) (full : List Nat) (fuel : Nat)
    (c ic : search_context) (acc : List sink_event) (ctb cte cid itb ite iid : Nat)
    (hc : c.token = some (ctb, cte, cid)) (hic : ic.token = some (itb, ite, iid))
    (hlt : ctb < itb) :
    far_loop fd ifd full (fuel + 1) c ic acc =
      far_loop fd ifd full fuel
        ⟨cte, fd_find_token token_finder_default_comparer fd full cte⟩
        (if ctx_overlaps c ic = true then
           (⟨cte, fd_find_token token_finder_ignore_case_comparer ifd full cte⟩ : search_context)
         else advance_current_to ic cte)
        (acc ++ [.literal c.current ctb,
                 .replacement ctb cte (fd.replacement_entries.getD cid default).replacement_text]) := by
  rw [far_loop]
  rw [hc, hic]
  simp only [if_pos hlt, write_events, hc, next_token, advance_current_to]
  by_cases hov : ctx_overlaps c ic = true
  · have hdrop : itb < cte := by
      rw [ctx_overlaps, hc, hic] at hov
      simp at hov
      rcases hov with ⟨_, h2⟩ | heq
      · exact h2
      · omega
    simp [hov, hdrop, hic, next_token]
  · simp [hov]

/-- When both contexts hold a candidate and the fold candidate starts at or
before the exact candidate (ties included), the loop writes the literal prefix
and the fold set's replacement, re-finds on the fold context, and advances the
exact context. -/
theorem far_loop_step_fold (fd ifd : token_finder_data) (full : List Nat) (fuel : Nat)
    (c ic : search_context) (acc : List sink_event) (ctb cte cid itb ite iid : Nat)
    (hc : c.token = some (ctb, cte, cid)) (hic : ic.token = some (itb, ite, iid))
    (hle : ¬ ctb < itb) (hii : itb < ite) :
    far_loop fd ifd full (fuel + 1) c ic acc =
      far_loop fd ifd full fuel
        (if ctx_overlaps c ic = true then
           (⟨ite, fd_find_token token_finder_default_comparer fd full ite⟩ : search_context)
         else advance_current_to c ite)
        ⟨ite, fd_find_token token_finder_ignore_case_comparer ifd full ite⟩
        (acc ++ [.literal ic.current itb,
                 .replacement itb ite (ifd.replacement_entries.getD iid default).replacement_text]) := by
  rw [far_loop]
  rw [hc, hic]
  simp only [if_neg hle, write_events, hic, next_token, advance_current_to]
  by_cases hov : ctx_overlaps c ic = true
  · have hdrop : ctb < ite := by
      rw [ctx_overlaps, hc, hic] at hov
      simp at hov
      rcases hov with ⟨h1, _⟩ | heq
      · exact h1
      · omega
    simp [hov, hdrop, hc, next_token]
  · simp [hov]

/-- When only the exact context holds a candidate, it is processed and the fold
context is left untouched. -/
theorem far_loop_step_exact_only (fd ifd : token_finder_data) (full : List Nat) (fuel : Nat)
    (c ic : search_context) (acc : List sink_event) (ctb cte cid : Nat)
    (hc : c.token = some (ctb, cte, cid)) (hic : ic.token = none) :
    far_loop fd ifd full (fuel + 1) c ic acc =
      far_loop fd ifd full fuel
        ⟨cte, fd_find_token token_finder_default_comparer fd full cte⟩ ic
        (acc ++ [.literal c.current ctb,
                 .replacement ctb cte (fd.replacement_entries.getD cid default).replacement_text]) := by
  rw [far_loop]
  rw [hc, hic]
  simp [write_events, hc, next_token]

/-- When only the fold context holds a candidate, it is processed and the exact
context is left untouched. -/
theorem far_loop_step_fold_only (fd ifd : token_finder_data) (full : List Nat) (fuel : Nat)
    (c ic : search_context) (acc : List sink_event) (itb ite iid : Nat)
    (hc : c.token = none) (hic : ic.token = some (itb, ite, iid)) :
    far_loop fd ifd full (fuel + 1) c ic acc =
      far_loop fd ifd full fuel
        c ⟨ite, fd_find_token token_finder_ignore_case_comparer ifd full ite⟩
        (acc ++ [.literal ic.current itb,
                 .replacement itb ite (ifd.replacement_entries.getD iid default).replacement_text]) := by
  rw [far_loop]
  rw [hc, hic]
  simp [write_events, hic, next_token]

/-- When neither context holds a candidate, the loop stops. -/
theorem far_loop_step_exit (fd ifd : token_finder_data) (full : List Nat) (fuel : Nat)
    (c ic : search_context) (acc : List sink_event)
    (hc : c.token = none) (hic : ic.token = none) :
    far_loop fd ifd full (fuel + 1) c ic acc = some (c, ic, acc) := by
  rw [far_loop]
  rw [hc, hic]

/-- Context invariant: a cached token starts at or after the cursor, is
non-empty, and ends inside the buffer. -/
def tok_inv (len : Nat) (x : search_context) : Prop :=
  ∀ tb te id, x.token = some (tb, te, id) → x.current ≤ tb ∧ tb < te ∧ te ≤ len

/-- The dual-finder loop terminates within the stated fuel and produces an
event list that tiles the input from `0` up to the larger final cursor. -/
theorem far_loop_spec (fd ifd : token_finder_data) (full : List Nat) :
    ∀ (fuel : Nat) (c ic : search_context) (acc : List sink_event),
      tok_inv full.length c → tok_inv full.length ic →
      c.current ≤ full.length → ic.current ≤ full.length →
      (c.token ≠ none → ic.current ≤ c.current) →
      (ic.token ≠ none → c.current ≤ ic.current) →
      tiles 0 acc (max c.current ic.current) →
      (full.length - c.current) + (full.length - ic.current) < fuel →
      ∃ c2 ic2 acc2,
        far_loop fd ifd full fuel c ic acc = some (c2, ic2, acc2) ∧
        c2.token = none ∧ ic2.token = none ∧
        c2.current ≤ full.length ∧ ic2.current ≤ full.length ∧
        tiles 0 acc2 (max c2.current ic2.current) := by
  intro fuel
  induction fuel with
  | zero => intro c ic acc _ _ _ _ _ _ _ hfuel; omega
  | succ fuel ih =>
    intro c ic acc hcinv hicinv hclen hiclen hmaxc hmaxic htiles hfuel
    cases hc : c.token with
    | none =>
      cases hic : ic.token with
      | none =>
        refine ⟨c, ic, acc, ?_, hc, hic, hclen, hiclen, htiles⟩
        exact far_loop_step_exit fd ifd full fuel c ic acc hc hic
      | some t =>
        obtain ⟨itb, ite, iid⟩ := t
        obtain ⟨hi1, hi2, hi3⟩ := hicinv itb ite iid hic
        have hcle : c.current ≤ ic.current := hmaxic (by rw [hic]; exact fun h => Option.noConfusion h)
        rw [far_loop_step_fold_only fd ifd full fuel c ic acc itb ite iid hc hic]
        have hfind := fd_find_token_some token_finder_ignore_case_comparer ifd full ite
        refine ih c ⟨ite, fd_find_token token_finder_ignore_case_comparer ifd full ite⟩ _
          hcinv ?_ hclen (by simp; omega) ?_ ?_ ?_ (by simp; omega)
        · intro tb te id h
          have := hfind tb te id h
          simpa using this
        · intro hne; exact absurd hc hne
        · intro _; simp; omega
        · have hm1 : max c.current ic.current = ic.current := by omega
          have hm2 : max c.current ite = ite := by simp; omega
          rw [hm1] at htiles
          rw [hm2]
          refine tiles_append _ _ _ _ _ htiles ?_
          rw [tiles]
          refine ⟨rfl, by simpa [ev_begin, ev_end] using hi1, ?_⟩
          rw [tiles]
          exact ⟨rfl, by simp [ev_begin, ev_end]; omega, by simp [tiles, ev_end]⟩
    | some t =>
      obtain ⟨ctb, cte, cid⟩ := t
      obtain ⟨hc1, hc2, hc3⟩ := hcinv ctb cte cid hc
      have hicle : ic.current ≤ c.current := hmaxc (by rw [hc]; exact fun h => Option.noConfusion h)
      cases hic : ic.token with
      | none =>
        rw [far_loop_step_exact_only fd ifd full fuel c ic acc ctb cte cid hc hic]
        have hfind := fd_find_token_some token_finder_default_comparer fd full cte
        refine ih ⟨cte, fd_find_token token_finder_default_comparer fd full cte⟩ ic _
          ?_ hicinv (by simp; omega) hiclen ?_ ?_ ?_ (by simp; omega)
        · intro tb te id h
          have := hfind tb te id h
          simpa using this
        · intro _; simp; omega
        · intro hne; exact absurd hic hne
        · have hm1 : max c.current ic.current = c.current := by omega
          have hm2 : max cte ic.current = cte := by simp; omega
          rw [hm1] at htiles
          rw [hm2]
          refine tiles_append _ _ _ _ _ htiles ?_
          rw [tiles]
          refine ⟨rfl, by simpa [ev_begin, ev_end] using hc1, ?_⟩
          rw [tiles]
          exact ⟨rfl, by simp [ev_begin, ev_end]; omega, by simp [tiles, ev_end]⟩
      | some t2 =>
        obtain ⟨itb, ite, iid⟩ := t2
        obtain ⟨hi1, hi2, hi3⟩ := hicinv itb ite iid hic
        have hcle : c.current ≤ ic.current := hmaxic (by rw [hic]; exact fun h => Option.noConfusion h)
        have hcureq : c.current = ic.current := by omega
        by_cases hlt : ctb < itb
        · rw [far_loop_step_exact fd ifd full fuel c ic acc ctb cte cid itb ite iid hc hic hlt]
          have hfind := fd_find_token_some token_finder_default_comparer fd full cte
          have hifind := fd_find_token_some token_finder_ignore_case_comparer ifd full cte
          have htiles2 : tiles 0
              (acc ++ [sink_event.literal c.current ctb,
                sink_event.replacement ctb cte (fd.replacement_entries.getD cid default).replacement_text])
              cte := by
            have hm1 : max c.current ic.current = c.current := by omega
            rw [hm1] at htiles
            refine tiles_append _ _ _ _ _ htiles ?_
            rw [tiles]
            refine ⟨rfl, by simpa [ev_begin, ev_end] using hc1, ?_⟩
            rw [tiles]
            exact ⟨rfl, by simp [ev_begin, ev_end]; omega, by simp [tiles, ev_end]⟩
          by_cases hov : ctx_overlaps c ic = true
          · rw [if_pos hov]
            refine ih _ _ _ ?_ ?_ (by simp; omega) (by simp; omega) ?_ ?_ ?_ (by simp; omega)
            · intro tb te id h
              have := hfind tb te id h
              simpa using this
            · intro tb te id h
              have := hifind tb te id h
              simpa using this
            · intro _; simp
            · intro _; simp
            · simpa using htiles2
          · rw [if_neg hov]
            refine ih _ _ _ ?_ ?_ (by simp; omega) ?_ ?_ ?_ ?_ ?_
            · intro tb te id h
              have := hfind tb te id h
              simpa using this
            · intro tb te id h
              rw [advance_current_to] at h
              simp only [hic] at h
              by_cases hdrop : itb < cte
              · simp [hdrop] at h
              · simp [hdrop] at h
                obtain ⟨h1, h2, h3⟩ := h
                simp [advance_current_to]
                omega
            · simp [advance_current_to]; omega
            · intro _; simp [advance_current_to]
            · intro _; simp [advance_current_to]
            · simp only [advance_current_to]
              simpa using htiles2
            · simp [advance_current_to]; omega
        · rw [far_loop_step_fold fd ifd full fuel c ic acc ctb cte cid itb ite iid hc hic hlt hi2]
          have hfind := fd_find_token_some token_finder_default_comparer fd full ite
          have hifind := fd_find_token_some token_finder_ignore_case_comparer ifd full ite
          have htiles2 : tiles 0
              (acc ++ [sink_event.literal ic.current itb,
                sink_event.replacement itb ite (ifd.replacement_entries.getD iid default).replacement_text])
              ite := by
            have hm1 : max c.current ic.current = ic.current := by omega
            rw [hm1] at htiles
            refine tiles_append _ _ _ _ _ htiles ?_
            rw [tiles]
            refine ⟨rfl, by simpa [ev_begin, ev_end] using hi1, ?_⟩
            rw [tiles]
            exact ⟨rfl, by simp [ev_begin, ev_end]; omega, by simp [tiles, ev_end]⟩
          by_cases hov : ctx_overlaps c ic = true
          · rw [if_pos hov]
            refine ih _ _ _ ?_ ?_ (by simp; omega) (by simp; omega) ?_ ?_ ?_ (by simp; omega)
            · intro tb te id h
              have := hfind tb te id h
              simpa using this
            · intro tb te id h
              have := hifind tb te id h
              simpa using this
            · intro _; simp
            · intro _; simp
            · simpa using htiles2
          · rw [if_neg hov]
            refine ih _ _ _ ?_ ?_ ?_ (by simp; omega) ?_ ?_ ?_ ?_
            · intro tb te id h
              rw [advance_current_to] at h
              simp only [hc] at h
              by_cases hdrop : ctb < ite
              · simp [hdrop] at h
              · simp [hdrop] at h
                obtain ⟨h1, h2, h3⟩ := h
                simp [advance_current_to]
                omega
            · intro tb te id h
              have := hifind tb te id h
              simpa using this
            · simp [advance_current_to]; omega
            · intro _; simp [advance_current_to]
            · intro _; simp [advance_current_to]
            · simp only [advance_current_to]
              simpa using htiles2
            · simp [advance_current_to]; omega

/-- The empty-root trie never matches. -/
theorem match_len_nil (cmp : Nat → Nat → Bool) (s : List Nat) : match_len cmp [] s = none := by
  cases s with
  | nil => rw [match_len]
  | cons c rest => rw [match_len]; rfl

/-- The empty-root scan never finds a token. -/
theorem find_token_from_nil (cmp : Nat → Nat → Bool) : ∀ s : List Nat, find_token_from cmp [] s = none := by
  intro s
  induction s with
  | nil => rw [find_token_from]
  | cons c rest ih =>
    rw [find_token_from, match_len_nil, ih]
    rfl

/-- An empty pattern set never finds a token. -/
theorem fd_find_token_empty (cmp : Nat → Nat → Bool) (full : List Nat) (cur : Nat) :
    fd_find_token cmp empty_finder full cur = none := by
  rw [fd_find_token, fd_find_token_go]
  have : empty_finder.root = [] := rfl
  rw [this, find_token_from_nil]

/-- `far_events` of any replacer tiles the whole input. -/
theorem far_events_tiles_full (r : case_preserve_replacer) (full : List Nat) :
    tiles 0 (far_events r full) full.length := by
  rw [far_events]
  by_cases h0 : full.length = 0
  · rw [if_pos h0, h0]
    rw [tiles]
  · rw [if_neg h0]
    have hfc := fd_find_token_some token_finder_default_comparer r.finder full 0
    have hfic := fd_find_token_some token_finder_ignore_case_comparer r.i_finder full 0
    obtain ⟨c2, ic2, acc2, heq, hn1, hn2, hl1, hl2, ht⟩ :=
      far_loop_spec r.finder r.i_finder full (2 * full.length + 2)
        ⟨0, fd_find_token token_finder_default_comparer r.finder full 0⟩
        ⟨0, fd_find_token token_finder_ignore_case_comparer r.i_finder full 0⟩ []
        (by intro tb te id h; simpa using hfc tb te id h)
        (by intro tb te id h; simpa using hfic tb te id h)
        (by simp) (by simp) (by intro _; simp) (by intro _; simp)
        (by simp [tiles]) (by omega)
    rw [heq]
    dsimp only
    have hlast : (if c2.current < ic2.current then ic2.current else c2.current) =
        max c2.current ic2.current := by
      split <;> omega
    rw [hlast]
    by_cases htail : max c2.current ic2.current < full.length
    · rw [if_pos htail]
      refine tiles_append _ _ _ _ _ ht ?_
      rw [tiles]
      refine ⟨rfl, by simp [ev_begin, ev_end]; omega, ?_⟩
      simp [tiles, ev_end]
    · rw [if_neg htail]
      have : max c2.current ic2.current = full.length := by omega
      rwa [this] at ht

/-- C8 helper: the events of a scan are pairwise disjoint, in order. -/
theorem far_events_pairwise (r : case_preserve_replacer) (full : List Nat) :
    (far_events r full).Pairwise (fun a b => ev_end a ≤ ev_begin b) :=
  tiles_pairwise _ 0 full.length (far_events_tiles_full r full)

/-- C8: for every installed rule set and every input, the spans consumed by the
emitted events tile the input `[0, length)` without overlap — in particular no
position is covered by two replacement emissions — and the output of
`find_and_replace` is exactly the concatenation of the spans written to the
sink. -/
theorem far_scan_disjoint_output (r : case_preserve_replacer) (full : List Nat) :
    tiles 0 (far_events r full) full.length ∧
    (far_events r full).Pairwise (fun a b => ev_end a ≤ ev_begin b) ∧
    find_and_replace r full = ((far_events r full).map (render full)).flatten :=
  ⟨far_events_tiles_full r full, far_events_pairwise r full, rfl⟩

/-- C10: the dual-finder loop of `find_and_replace` always terminates: with fuel
`2 * length + 2` it runs to completion on every input and every pair of pattern
sets (every candidate a pattern set reports is non-empty, so each iteration
strictly advances a cursor bounded by the end of the input). -/
theorem find_and_replace_terminates (r : case_preserve_replacer) (full : List Nat) :
    ∃ res, far_loop r.finder r.i_finder full (2 * full.length + 2)
        ⟨0, fd_find_token token_finder_default_comparer r.finder full 0⟩
        ⟨0, fd_find_token token_finder_ignore_case_comparer r.i_finder full 0⟩ [] = some res := by
  have hfc := fd_find_token_some token_finder_default_comparer r.finder full 0
  have hfic := fd_find_token_some token_finder_ignore_case_comparer r.i_finder full 0
  obtain ⟨c2, ic2, acc2, heq, _⟩ :=
    far_loop_spec r.finder r.i_finder full (2 * full.length + 2)
      ⟨0, fd_find_token token_finder_default_comparer r.finder full 0⟩
      ⟨0, fd_find_token token_finder_ignore_case_comparer r.i_finder full 0⟩ []
      (by intro tb te id h; simpa using hfc tb te id h)
      (by intro tb te id h; simpa using hfic tb te id h)
      (by simp) (by simp) (by intro _; simp) (by intro _; simp)
      (by simp [tiles]) (by omega)
  exact ⟨(c2, ic2, acc2), heq⟩

/-- C9: with zero installed rules, `find_and_replace` is the identity on every
input. -/
theorem zero_rules_identity (s : List Nat) : find_and_replace empty_replacer s = s := by
  rw [find_and_replace, far_events]
  by_cases h0 : s.length = 0
  · rw [if_pos h0]
    have : s = [] := List.length_eq_zero.mp h0
    simp [this]
  · rw [if_neg h0]
    have e1 : fd_find_token token_finder_default_comparer empty_replacer.finder s 0 = none :=
      fd_find_token_empty _ _ _
    have e2 : fd_find_token token_finder_ignore_case_comparer empty_replacer.i_finder s 0 = none :=
      fd_find_token_empty _ _ _
    have hexit := far_loop_step_exit empty_replacer.finder empty_replacer.i_finder s (2 * s.length + 1)
      ⟨0, fd_find_token token_finder_default_comparer empty_replacer.finder s 0⟩
      ⟨0, fd_find_token token_finder_ignore_case_comparer empty_replacer.i_finder s 0⟩ []
      (by simpa using e1) (by simpa using e2)
    rw [show (2 * s.length + 2) = (2 * s.length + 1) + 1 from rfl, hexit]
    dsimp only
    rw [if_neg (by omega : ¬ (0 : Nat) < 0), if_pos (Nat.pos_of_ne_zero h0)]
    simp [render]

/-! ### C1: tie-break between the two pattern sets -/

/-- C1 amended: when both pattern sets hold a candidate, the one with the
strictly smaller begin position is processed and its replacement emitted; when
the begin positions are equal, the fold (ignore-case) set's candidate is the
one processed (`if (context.token_begin < i_context.token_begin)` sends ties to
the `else` branch). -/
theorem dual_finder_earlier_wins_tie_to_fold (fd ifd : token_finder_data) (full : List Nat)
    (fuel : Nat) (c ic : search_context) (acc : List sink_event)
    (ctb cte cid itb ite iid : Nat)
    (hc : c.token = some (ctb, cte, cid)) (hic : ic.token = some (itb, ite, iid))
    (hii : itb < ite) :
    (ctb < itb →
      far_loop fd ifd full (fuel + 1) c ic acc =
        far_loop fd ifd full fuel
          ⟨cte, fd_find_token token_finder_default_comparer fd full cte⟩
          (if ctx_overlaps c ic = true then
             (⟨cte, fd_find_token token_finder_ignore_case_comparer ifd full cte⟩ : search_context)
           else advance_current_to ic cte)
          (acc ++ [.literal c.current ctb,
                   .replacement ctb cte (fd.replacement_entries.getD cid default).replacement_text])) ∧
    (itb ≤ ctb →
      far_loop fd ifd full (fuel + 1) c ic acc =
        far_loop fd ifd full fuel
          (if ctx_overlaps c ic = true then
             (⟨ite, fd_find_token token_finder_default_comparer fd full ite⟩ : search_context)
           else advance_current_to c ite)
          ⟨ite, fd_find_token token_finder_ignore_case_comparer ifd full ite⟩
          (acc ++ [.literal ic.current itb,
                   .replacement itb ite (ifd.replacement_entries.getD iid default).replacement_text])) := by
  constructor
  · intro hlt
    exact far_loop_step_exact fd ifd full fuel c ic acc ctb cte cid itb ite iid hc hic hlt
  · intro hle
    exact far_loop_step_fold fd ifd full fuel c ic acc ctb cte cid itb ite iid hc hic
      (by omega) hii

/-- Witness for the amended C1 theorem: a concrete tie (both candidates begin
at 0) is processed through the fold branch. -/
theorem dual_finder_earlier_wins_tie_to_fold_witness :
    far_loop empty_finder empty_finder [97, 98] 1
        ⟨0, some (0, 1, 5)⟩ ⟨0, some (0, 2, 7)⟩ [] =
      far_loop empty_finder empty_finder [97, 98] 0
        (if ctx_overlaps (⟨0, some (0, 1, 5)⟩ : search_context) (⟨0, some (0, 2, 7)⟩ : search_context) = true then
           (⟨2, fd_find_token token_finder_default_comparer empty_finder [97, 98] 2⟩ : search_context)
         else advance_current_to ⟨0, some (0, 1, 5)⟩ 2)
        ⟨2, fd_find_token token_finder_ignore_case_comparer empty_finder [97, 98] 2⟩
        ([] ++ [.literal 0 0,
                .replacement 0 2 (empty_finder.replacement_entries.getD 7 default).replacement_text]) :=
  (dual_finder_earlier_wins_tie_to_fold empty_finder empty_finder [97, 98] 0
    ⟨0, some (0, 1, 5)⟩ ⟨0, some (0, 2, 7)⟩ [] 0 1 5 0 2 7 rfl rfl (by decide)).2 (by decide)

/-- The replacer with the exact rule `abc → E` installed. -/
def c1_r1 : case_preserve_replacer :=
  (add_replacement empty_replacer [97, 98, 99] [69] case_mode.match_case false).toOption.getD
    empty_replacer

/-- The replacer with exact `abc → E` and fold `abc → F` installed. -/
def c1_replacer : case_preserve_replacer :=
  (add_replacement c1_r1 [97, 98, 99] [70] case_mode.ignore_case false).toOption.getD
    empty_replacer

/-- C1 counterexample: on input `abc` both sets hit at position 0; the scan
emits the fold set's replacement `F`, not the exact set's `E`. -/
theorem tie_break_fold_wins_cex :
    find_and_replace c1_replacer [97, 98, 99] = [70] ∧ ([70] : List Nat) ≠ [69] :=
  ⟨by decide, by decide⟩

/-! ### C2: the whole-word gate retry position -/

/-- C2 amended: a candidate that fails the whole-word gate is discarded and the
search resumes from the candidate's end position (`hit_end`), not from `p+1`:
`context.next_token()` sets `current = token_end` before the retry. -/
theorem whole_word_gate_resumes_at_hit_end (cmp : Nat → Nat → Bool) (fd : token_finder_data)
    (full : List Nat) (cur b l id : Nat)
    (hraw : find_token_from cmp fd.root ((full.drop cur).takeWhile (fun c => c != 0)) = some (b, l, id))
    (hww : (fd.replacement_entries.getD id default).match_whole_word = true)
    (hfail : ((decide (0 < cur + b) && ascii_isalnum (full.getD (cur + b - 1) 0)) ||
              (decide (cur + b + l < full.length) && ascii_isalnum (full.getD (cur + b + l) 0))) = true) :
    fd_find_token cmp fd full cur = fd_find_token cmp fd full (cur + b + l) := by
  obtain ⟨h1, h2⟩ := find_token_from_bounds cmp fd.root _ b l id hraw
  have hlen : ((full.drop cur).takeWhile (fun c => c != 0)).length ≤ full.length - cur := by
    calc ((full.drop cur).takeWhile (fun c => c != 0)).length
        ≤ (full.drop cur).length := takeWhile_len_le _ _
      _ = full.length - cur := List.length_drop ..
  have hcur : cur < full.length := by
    by_contra hge
    have hdrop : full.drop cur = [] := List.drop_eq_nil_of_le (by omega)
    rw [hdrop] at hraw
    simp [find_token_from] at hraw
  rw [fd_find_token, fd_find_token]
  conv_lhs => rw [fd_find_token_go, hraw]
  dsimp only
  rw [if_pos hww, if_pos hfail]
  exact fd_find_token_go_irrel cmp fd full full.length (full.length + 1) (cur + b + l)
    (by omega) (by omega)

/-- Witness data for C2: the exact set holding `abc → X` (whole word) and
`bc → Y`. -/
def c2_r1 : case_preserve_replacer :=
  (add_replacement empty_replacer [97, 98, 99] [88] case_mode.match_case true).toOption.getD
    empty_replacer

/-- Witness data for C2, second rule added. -/
def c2_replacer : case_preserve_replacer :=
  (add_replacement c2_r1 [98, 99] [89] case_mode.match_case false).toOption.getD
    empty_replacer

/-- Witness for the amended C2 theorem: on `abcd` the candidate `abc` at 0
fails the gate and the search resumes from its end, position 3. -/
theorem whole_word_gate_resumes_at_hit_end_witness :
    fd_find_token token_finder_default_comparer c2_replacer.finder [97, 98, 99, 100] 0 =
      fd_find_token token_finder_default_comparer c2_replacer.finder [97, 98, 99, 100] 3 :=
  whole_word_gate_resumes_at_hit_end token_finder_default_comparer c2_replacer.finder
    [97, 98, 99, 100] 0 0 3 0 (by decide) (by decide) (by decide)

/-- C2 counterexample: with whole-word `abc → X` and plain `bc → Y` installed,
the input `abcd` is returned unchanged: the discarded candidate `abc` at 0
makes the search resume at 3, so the valid match `bc` at 1 (inside the
discarded span) is never found, and the output differs from the `aYd` the
claim predicts. -/
theorem whole_word_skip_cex :
    find_and_replace c2_replacer [97, 98, 99, 100] = [97, 98, 99, 100] ∧
    ([97, 98, 99, 100] : List Nat) ≠ [97, 89, 100] :=
  ⟨by decide, by decide⟩

/-! ### C3: duplicate insertion -/

/-- A key is present in a trie level: walking the level's first raw-character
match for each key character (the same walk insertion performs) ends at a node
carrying `id`. -/
def tree_token : List search_tree_entry → List Nat → Nat → Bool
  | _, [], _ => false
  | entries, [c], id =>
    match split_at_char entries c with
    | some (_, e, _) => e.token_id == some id
    | none => false
  | entries, c :: c2 :: rest, id =>
    match split_at_char entries c with
    | some (_, e, _) => tree_token e.next_entries (c2 :: rest) id
    | none => false

/-- Under the exact comparer, the search's level scan selects exactly the entry
insertion would select. -/
theorem find_entry_exact_eq (c : Nat) : ∀ entries : List search_tree_entry,
    find_entry token_finder_default_comparer entries c =
      (split_at_char entries c).map (fun pes => pes.2.1) := by
  intro entries
  induction entries with
  | nil => rfl
  | cons e rest ih =>
    rw [find_entry, split_at_char]
    by_cases h : e.character = c
    · simp [token_finder_default_comparer, h]
    · simp only [token_finder_default_comparer, if_neg h, beq_iff_eq]
      rw [ih]
      cases split_at_char rest c with
      | none => rfl
      | some pes => rfl

/-- Exact-set completeness: a present key is found by the descent as a
full-length match with its own id. -/
theorem tree_token_match_len : ∀ (key : List Nat) (entries : List search_tree_entry) (id : Nat),
    tree_token entries key id = true →
    match_len token_finder_default_comparer entries key = some (key.length, id) := by
  intro key
  induction key with
  | nil => intro entries id h; simp [tree_token] at h
  | cons c tail ih =>
    intro entries id h
    cases tail with
    | nil =>
      rw [tree_token] at h
      cases hsp : split_at_char entries c with
      | none => rw [hsp] at h; simp at h
      | some pes =>
        obtain ⟨pre, e, post⟩ := pes
        rw [hsp] at h
        simp at h
        rw [match_len, find_entry_exact_eq, hsp]
        simp only [Option.map_some']
        rw [match_len]
        rw [h]
        rfl
    | cons c2 rest =>
      rw [tree_token] at h
      cases hsp : split_at_char entries c with
      | none => rw [hsp] at h; simp at h
      | some pes =>
        obtain ⟨pre, e, post⟩ := pes
        rw [hsp] at h
        rw [match_len, find_entry_exact_eq, hsp]
        simp only [Option.map_some']
        rw [ih e.next_entries id h]
        rfl

/-- A present key is reported by the scan at offset 0 spanning the whole key. -/
theorem tree_token_find_full (root : List search_tree_entry) (key : List Nat) (id : Nat)
    (hk : key ≠ []) (h : tree_token root key id = true) :
    find_token_from token_finder_default_comparer root key = some (0, key.length, id) := by
  cases key with
  | nil => exact absurd rfl hk
  | cons c rest =>
    rw [find_token_from, tree_token_match_len _ _ _ h]

/-- C3 amended: re-inserting a key that is already present does not raise.  For
the exact set (`match_case`), a byte-equal present key always takes the
variant-dedup path: `add_replacement` returns the unchanged replacer.  For any
pattern set, whenever the dedup probe reports the key as a full-width match
(in particular any byte-equal re-insert into the fold set whose probe resolves
to it), `add_token` returns `false` and leaves the set unchanged; under
`preserve_case` the same path silently skips duplicate renderings. -/
theorem duplicate_add_silently_skipped :
    (∀ (r : case_preserve_replacer) (key repl : List Nat) (ww : Bool) (id : Nat),
       tree_token r.finder.root key id = true → key ≠ [] →
       add_replacement r key repl case_mode.match_case ww = .ok r) ∧
    (∀ (cmp : Nat → Nat → Bool) (fd : token_finder_data) (key repl : List Nat) (ww : Bool)
       (b l id : Nat),
       find_token_from cmp fd.root key = some (b, l, id) → b = 0 → b + l = key.length →
       fd_add_token cmp fd key repl ww = .ok (fd, false)) := by
  constructor
  · intro r key repl ww id htok hk
    rw [add_replacement]
    rw [if_neg (by simpa [List.isEmpty_iff] using hk)]
    have hprobe := tree_token_find_full r.finder.root key id hk htok
    rw [fd_add_token, hprobe]
    dsimp only
    rw [if_pos ⟨rfl, by omega⟩]
    rfl
  · intro cmp fd key repl ww b l id hprobe hb hl
    rw [fd_add_token, hprobe]
    dsimp only
    rw [if_pos ⟨hb, by omega⟩]

/-- The replacer with exact `abc → X` installed, for the C3 witness. -/
def c3_r : case_preserve_replacer :=
  (add_replacement empty_replacer [97, 98, 99] [88] case_mode.match_case false).toOption.getD
    empty_replacer

/-- Witness for the amended C3 theorem: re-adding `abc` under `match_case`
returns the unchanged replacer. -/
theorem duplicate_add_silently_skipped_witness :
    add_replacement c3_r [97, 98, 99] [89] case_mode.match_case true = .ok c3_r :=
  duplicate_add_silently_skipped.1 c3_r [97, 98, 99] [89] true 0 (by decide) (by decide)

/-- The replacer with fold `abc → X` installed, for the C3 counterexample. -/
def c3i_r : case_preserve_replacer :=
  (add_replacement empty_replacer [97, 98, 99] [88] case_mode.ignore_case false).toOption.getD
    empty_replacer

/-- C3 counterexample: duplicate direct insertion raises no error.  Re-adding
byte-equal `abc` under `match_case` and fold-equal `ABC` under `ignore_case`
both return `.ok` with the replacer unchanged, contradicting the claimed
duplicate-token error. -/
theorem duplicate_add_no_error_cex :
    add_replacement c3_r [97, 98, 99] [89] case_mode.match_case false = .ok c3_r ∧
    add_replacement c3i_r [65, 66, 67] [89] case_mode.ignore_case false = .ok c3i_r :=
  ⟨rfl, rfl⟩

/-! ### C4: the scan is null-terminated -/

/-- `takeWhile` of a list of accepted elements followed by a rejected one stops
exactly at the boundary. -/
theorem takeWhile_all_stop (p : Nat → Bool) (y : Nat) (t : List Nat) (hy : p y = false) :
    ∀ xs : List Nat, (∀ x ∈ xs, p x = true) → (xs ++ y :: t).takeWhile p = xs := by
  intro xs
  induction xs with
  | nil => intro _; simp [List.takeWhile, hy]
  | cons x rest ih =>
    intro hall
    rw [List.cons_append, List.takeWhile]
    rw [hall x (List.mem_cons_self x rest)]
    rw [ih (fun z hz => hall z (List.mem_cons_of_mem x hz))]

/-- The null-terminated view of the text after the cursor equals the rest of
the zero-free prefix. -/
theorem nul_takeWhile (a t : List Nat) (cur : Nat) (ha : ¬ 0 ∈ a) (hcur : cur ≤ a.length) :
    ((a ++ 0 :: t).drop cur).takeWhile (fun c => c != 0) = a.drop cur := by
  rw [List.drop_append_of_le_length hcur]
  refine takeWhile_all_stop _ 0 t (by simp) _ ?_
  intro x hx
  have hxa : x ∈ a := List.mem_of_mem_drop hx
  simp only [bne_iff_ne, ne_eq]
  intro hx0
  exact ha (hx0 ▸ hxa)

/-- Code units at positions up to the first zero agree between the two
buffers. -/
theorem nul_getD (a t : List Nat) (i : Nat) (hi : i ≤ a.length) :
    (a ++ 0 :: t).getD i 0 = (a ++ [0]).getD i 0 := by
  rcases Nat.lt_or_ge i a.length with hlt | hge
  · rw [List.getD_append _ _ _ _ hlt, List.getD_append _ _ _ _ hlt]
  · have hieq : i = a.length := by omega
    subst hieq
    rw [List.getD_append_right _ _ _ _ (le_refl _), List.getD_append_right _ _ _ _ (le_refl _)]
    simp

/-- Literal spans inside the zero-free prefix render identically from the two
buffers. -/
theorem nul_slice (a t1 t2 : List Nat) (bb ee : Nat) (hee : ee ≤ a.length) :
    ((a ++ t1).drop bb).take (ee - bb) = ((a ++ t2).drop bb).take (ee - bb) := by
  rcases le_or_lt bb a.length with hbb | hbb
  · rw [List.drop_append_of_le_length hbb, List.drop_append_of_le_length hbb]
    have hlen : ee - bb ≤ (a.drop bb).length := by
      rw [List.length_drop]
      omega
    rw [List.take_append_of_le_length hlen, List.take_append_of_le_length hlen]
  · have : ee - bb = 0 := by omega
    rw [this]
    simp

/-- The retry loop sees the same candidates from the two buffers while the
cursor stays inside the zero-free prefix, and every candidate it reports ends
inside that prefix. -/
theorem fd_find_token_go_nul (cmp : Nat → Nat → Bool) (fd : token_finder_data)
    (a b : List Nat) (ha : ¬ 0 ∈ a) :
    ∀ (fuel cur : Nat), cur ≤ a.length →
      fd_find_token_go cmp fd (a ++ 0 :: b) fuel cur = fd_find_token_go cmp fd (a ++ [0]) fuel cur ∧
      (∀ tb te id, fd_find_token_go cmp fd (a ++ 0 :: b) fuel cur = some (tb, te, id) →
        cur ≤ tb ∧ tb < te ∧ te ≤ a.length) := by
  intro fuel
  induction fuel with
  | zero => intro cur hcur; rw [fd_find_token_go]; exact ⟨rfl, by intro tb te id h; simp [fd_find_token_go] at h⟩
  | succ fuel ih =>
    intro cur hcur
    have htw1 : ((a ++ 0 :: b).drop cur).takeWhile (fun c => c != 0) = a.drop cur :=
      nul_takeWhile a b cur ha hcur
    have htw2 : ((a ++ [0]).drop cur).takeWhile (fun c => c != 0) = a.drop cur := by
      have := nul_takeWhile a [] cur ha hcur
      simpa using this
    rw [fd_find_token_go, fd_find_token_go, htw1, htw2]
    cases hraw : find_token_from cmp fd.root (a.drop cur) with
    | none => exact ⟨rfl, by intro tb te id h; simp at h⟩
    | some bli =>
      obtain ⟨b0, l0, id0⟩ := bli
      obtain ⟨hl1, hl2⟩ := find_token_from_bounds cmp fd.root _ b0 l0 id0 hraw
      have hte : cur + b0 + l0 ≤ a.length := by
        have := List.length_drop cur a
        omega
      have hg1 : (a ++ 0 :: b).getD (cur + b0 - 1) 0 = (a ++ [0]).getD (cur + b0 - 1) 0 :=
        nul_getD a b _ (by omega)
      have hg2 : (a ++ 0 :: b).getD (cur + b0 + l0) 0 = (a ++ [0]).getD (cur + b0 + l0) 0 :=
        nul_getD a b _ (by omega)
      have hlen1 : (a ++ 0 :: b).length = a.length + 1 + b.length := by simp; omega
      have hlen2 : (a ++ [0]).length = a.length + 1 := by simp
      have hdec : decide (cur + b0 + l0 < (a ++ 0 :: b).length) =
          decide (cur + b0 + l0 < (a ++ [0]).length) := by
        rw [hlen1, hlen2]
        have h1 : cur + b0 + l0 < a.length + 1 + b.length := by omega
        have h2 : cur + b0 + l0 < a.length + 1 := by omega
        simp [h1, h2]
      simp only [hg1, hg2, hdec]
      by_cases hww : (fd.replacement_entries.getD id0 default).match_whole_word = true
      · rw [if_pos hww, if_pos hww]
        by_cases hfail :
            ((decide (0 < cur + b0) && ascii_isalnum ((a ++ [0]).getD (cur + b0 - 1) 0)) ||
             (decide (cur + b0 + l0 < (a ++ [0]).length) && ascii_isalnum ((a ++ [0]).getD (cur + b0 + l0) 0))) = true
        · rw [if_pos hfail, if_pos hfail]
          obtain ⟨ihe, ihb⟩ := ih (cur + b0 + l0) hte
          refine ⟨ihe, ?_⟩
          intro tb te id h
          have := ihb tb te id h
          omega
        · rw [if_neg hfail, if_neg hfail]
          refine ⟨rfl, ?_⟩
          intro tb te id h
          simp only [Option.some.injEq, Prod.mk.injEq] at h
          omega
      · rw [if_neg hww, if_neg hww]
        refine ⟨rfl, ?_⟩
        intro tb te id h
        simp only [Option.some.injEq, Prod.mk.injEq] at h
        omega

/-- `find_token` sees the same candidates from the two buffers. -/
theorem fd_find_token_nul (cmp : Nat → Nat → Bool) (fd : token_finder_data)
    (a b : List Nat) (ha : ¬ 0 ∈ a) (cur : Nat) (hcur : cur ≤ a.length) :
    fd_find_token cmp fd (a ++ 0 :: b) cur = fd_find_token cmp fd (a ++ [0]) cur := by
  rw [fd_find_token, fd_find_token]
  have h1 := (fd_find_token_go_nul cmp fd a b ha ((a ++ 0 :: b).length + 1) cur hcur).1
  rw [h1]
  refine fd_find_token_go_irrel cmp fd (a ++ [0]) _ _ cur ?_ ?_
  · simp at *; omega
  · omega

/-- Candidates reported against the longer buffer stay in the zero-free
prefix. -/
theorem fd_find_token_nul_bound (cmp : Nat → Nat → Bool) (fd : token_finder_data)
    (a b : List Nat) (ha : ¬ 0 ∈ a) (cur : Nat) (hcur : cur ≤ a.length)
    (tb te id : Nat) (h : fd_find_token cmp fd (a ++ 0 :: b) cur = some (tb, te, id)) :
    cur ≤ tb ∧ tb < te ∧ te ≤ a.length :=
  (fd_find_token_go_nul cmp fd a b ha ((a ++ 0 :: b).length + 1) cur hcur).2 tb te id h

/-- Once the loop completes within some fuel, more fuel gives the same
result. -/
theorem far_loop_mono (fd ifd : token_finder_data) (full : List Nat) :
    ∀ (f g : Nat) (c ic : search_context) (acc : List sink_event)
      (res : search_context × search_context × List sink_event),
      f ≤ g → far_loop fd ifd full f c ic acc = some res →
      far_loop fd ifd full g c ic acc = some res := by
  intro f
  induction f with
  | zero => intro g c ic acc res _ h; rw [far_loop] at h; exact absurd h (by simp)
  | succ f ih =>
    intro g c ic acc res hle h
    cases g with
    | zero => omega
    | succ g =>
      rw [far_loop] at h ⊢
      cases hc : c.token with
      | none =>
        cases hic : ic.token with
        | none =>
          simp only [hc, hic] at h ⊢
          exact h
        | some t =>
          obtain ⟨itb, ite, iid⟩ := t
          simp only [hc, hic] at h ⊢
          exact ih g _ _ _ _ (by omega) h
      | some t =>
        obtain ⟨ctb, cte, cid⟩ := t
        cases hic : ic.token with
        | none =>
          simp only [hc, hic] at h ⊢
          exact ih g _ _ _ _ (by omega) h
        | some t2 =>
          obtain ⟨itb, ite, iid⟩ := t2
          simp only [hc, hic] at h ⊢
          by_cases hlt : ctb < itb
          · rw [if_pos hlt] at h ⊢
            exact ih g _ _ _ _ (by omega) h
          · rw [if_neg hlt] at h ⊢
            exact ih g _ _ _ _ (by omega) h

/-- While the contexts stay inside the zero-free prefix, the loop behaves
identically on the two buffers, and the final cursors stay inside the
prefix. -/
theorem far_loop_nul (fd ifd : token_finder_data) (a b : List Nat) (ha : ¬ 0 ∈ a) :
    ∀ (fuel : Nat) (c ic : search_context) (acc : List sink_event),
      tok_inv a.length c → tok_inv a.length ic →
      c.current ≤ a.length → ic.current ≤ a.length →
      far_loop fd ifd (a ++ 0 :: b) fuel c ic acc = far_loop fd ifd (a ++ [0]) fuel c ic acc ∧
      (∀ c2 ic2 acc2, far_loop fd ifd (a ++ [0]) fuel c ic acc = some (c2, ic2, acc2) →
        c2.current ≤ a.length ∧ ic2.current ≤ a.length) := by
  intro fuel
  induction fuel with
  | zero =>
    intro c ic acc _ _ _ _
    rw [far_loop, far_loop]
    exact ⟨rfl, by intro c2 ic2 acc2 h; simp at h⟩
  | succ fuel ih =>
    intro c ic acc hcinv hicinv hclen hiclen
    have hb1 := fd_find_token_nul_bound token_finder_default_comparer fd a [] ha
    have hb2 := fd_find_token_nul_bound token_finder_ignore_case_comparer ifd a [] ha
    cases hc : c.token with
    | none =>
      cases hic : ic.token with
      | none =>
        rw [far_loop_step_exit fd ifd (a ++ 0 :: b) fuel c ic acc hc hic,
            far_loop_step_exit fd ifd (a ++ [0]) fuel c ic acc hc hic]
        refine ⟨rfl, ?_⟩
        intro c2 ic2 acc2 h
        simp only [Option.some.injEq, Prod.mk.injEq] at h
        obtain ⟨h1, h2, _⟩ := h
        rw [← h1, ← h2]
        exact ⟨hclen, hiclen⟩
      | some t =>
        obtain ⟨itb, ite, iid⟩ := t
        obtain ⟨hi1, hi2, hi3⟩ := hicinv itb ite iid hic
        rw [far_loop_step_fold_only fd ifd (a ++ 0 :: b) fuel c ic acc itb ite iid hc hic,
            far_loop_step_fold_only fd ifd (a ++ [0]) fuel c ic acc itb ite iid hc hic]
        rw [fd_find_token_nul token_finder_ignore_case_comparer ifd a b ha ite hi3]
        refine ih _ _ _ hcinv ?_ hclen hi3
        intro tb te id h
        have := hb2 ite hi3 tb te id (by simpa using h)
        simpa using this
    | some t =>
      obtain ⟨ctb, cte, cid⟩ := t
      obtain ⟨hc1, hc2, hc3⟩ := hcinv ctb cte cid hc
      cases hic : ic.token with
      | none =>
        rw [far_loop_step_exact_only fd ifd (a ++ 0 :: b) fuel c ic acc ctb cte cid hc hic,
            far_loop_step_exact_only fd ifd (a ++ [0]) fuel c ic acc ctb cte cid hc hic]
        rw [fd_find_token_nul token_finder_default_comparer fd a b ha cte hc3]
        refine ih _ _ _ ?_ hicinv hc3 hiclen
        intro tb te id h
        have := hb1 cte hc3 tb te id (by simpa using h)
        simpa using this
      | some t2 =>
        obtain ⟨itb, ite, iid⟩ := t2
        obtain ⟨hi1, hi2, hi3⟩ := hicinv itb ite iid hic
        by_cases hlt : ctb < itb
        · rw [far_loop_step_exact fd ifd (a ++ 0 :: b) fuel c ic acc ctb cte cid itb ite iid hc hic hlt,
              far_loop_step_exact fd ifd (a ++ [0]) fuel c ic acc ctb cte cid itb ite iid hc hic hlt]
          rw [fd_find_token_nul token_finder_default_comparer fd a b ha cte hc3,
              fd_find_token_nul token_finder_ignore_case_comparer ifd a b ha cte hc3]
          have hcinv2 : tok_inv a.length ⟨cte, fd_find_token token_finder_default_comparer fd (a ++ [0]) cte⟩ := by
            intro tb te id h
            have := hb1 cte hc3 tb te id (by simpa using h)
            simpa using this
          by_cases hov : ctx_overlaps c ic = true
          · rw [if_pos hov]
            refine ih _ _ _ hcinv2 ?_ hc3 hc3
            intro tb te id h
            have := hb2 cte hc3 tb te id (by simpa using h)
            simpa using this
          · rw [if_neg hov]
            refine ih _ _ _ hcinv2 ?_ hc3 ?_
            · intro tb te id h
              rw [advance_current_to] at h
              simp only [hic] at h
              by_cases hdrop : itb < cte
              · simp [hdrop] at h
              · simp [hdrop] at h
                obtain ⟨e1, e2, e3⟩ := h
                simp [advance_current_to]
                omega
            · simp [advance_current_to]
              omega
        · rw [far_loop_step_fold fd ifd (a ++ 0 :: b) fuel c ic acc ctb cte cid itb ite iid hc hic hlt hi2,
              far_loop_step_fold fd ifd (a ++ [0]) fuel c ic acc ctb cte cid itb ite iid hc hic hlt hi2]
          rw [fd_find_token_nul token_finder_default_comparer fd a b ha ite hi3,
              fd_find_token_nul token_finder_ignore_case_comparer ifd a b ha ite hi3]
          have hicinv2 : tok_inv a.length ⟨ite, fd_find_token token_finder_ignore_case_comparer ifd (a ++ [0]) ite⟩ := by
            intro tb te id h
            have := hb2 ite hi3 tb te id (by simpa using h)
            simpa using this
          by_cases hov : ctx_overlaps c ic = true
          · rw [if_pos hov]
            refine ih _ _ _ ?_ hicinv2 hi3 hi3
            intro tb te id h
            have := hb1 ite hi3 tb te id (by simpa using h)
            simpa using this
          · rw [if_neg hov]
            refine ih _ _ _ ?_ hicinv2 ?_ hi3
            · intro tb te id h
              rw [advance_current_to] at h
              simp only [hc] at h
              by_cases hdrop : ctb < ite
              · simp [hdrop] at h
              · simp [hdrop] at h
                obtain ⟨e1, e2, e3⟩ := h
                simp [advance_current_to]
                omega
            · simp [advance_current_to]
              omega

/-- C4 amended: `find_and_replace` scans the buffer as a null-terminated
string.  Everything from the first embedded zero on is emitted unchanged, and
no replacement is performed after it: the output on `a ++ 0 :: b` (with `a`
zero-free) is the output on `a ++ [0]` followed by the untouched bytes `b`. -/
theorem scan_stops_at_first_nul (r : case_preserve_replacer) (a b : List Nat) (ha : ¬ 0 ∈ a) :
    find_and_replace r (a ++ 0 :: b) = find_and_replace r (a ++ [0]) ++ b := by
  have hlen1 : (a ++ 0 :: b).length = a.length + 1 + b.length := by simp; omega
  have hlen2 : (a ++ [0]).length = a.length + 1 := by simp
  have hf0 : fd_find_token token_finder_default_comparer r.finder (a ++ 0 :: b) 0 =
      fd_find_token token_finder_default_comparer r.finder (a ++ [0]) 0 :=
    fd_find_token_nul _ _ a b ha 0 (by omega)
  have hif0 : fd_find_token token_finder_ignore_case_comparer r.i_finder (a ++ 0 :: b) 0 =
      fd_find_token token_finder_ignore_case_comparer r.i_finder (a ++ [0]) 0 :=
    fd_find_token_nul _ _ a b ha 0 (by omega)
  have hfc := fd_find_token_some token_finder_default_comparer r.finder (a ++ [0]) 0
  have hfic := fd_find_token_some token_finder_ignore_case_comparer r.i_finder (a ++ [0]) 0
  obtain ⟨c2, ic2, acc2, heq2, hn1, hn2, hl1, hl2, ht⟩ :=
    far_loop_spec r.finder r.i_finder (a ++ [0]) (2 * (a ++ [0]).length + 2)
      ⟨0, fd_find_token token_finder_default_comparer r.finder (a ++ [0]) 0⟩
      ⟨0, fd_find_token token_finder_ignore_case_comparer r.i_finder (a ++ [0]) 0⟩ []
      (by intro tb te id h; simpa using hfc tb te id h)
      (by intro tb te id h; simpa using hfic tb te id h)
      (by simp) (by simp) (by intro _; simp) (by intro _; simp)
      (by simp [tiles]) (by omega)
  have heq2big : far_loop r.finder r.i_finder (a ++ [0]) (2 * (a ++ 0 :: b).length + 2)
      ⟨0, fd_find_token token_finder_default_comparer r.finder (a ++ [0]) 0⟩
      ⟨0, fd_find_token token_finder_ignore_case_comparer r.i_finder (a ++ [0]) 0⟩ [] =
      some (c2, ic2, acc2) :=
    far_loop_mono r.finder r.i_finder (a ++ [0]) _ _ _ _ _ _ (by omega) heq2
  obtain ⟨hbig_eq, hcurs⟩ :=
    far_loop_nul r.finder r.i_finder a b ha (2 * (a ++ 0 :: b).length + 2)
      ⟨0, fd_find_token token_finder_default_comparer r.finder (a ++ [0]) 0⟩
      ⟨0, fd_find_token token_finder_ignore_case_comparer r.i_finder (a ++ [0]) 0⟩ []
      (by
        intro tb te id h
        have := fd_find_token_nul_bound token_finder_default_comparer r.finder a [] ha 0
          (by omega) tb te id (by simpa using h)
        simpa using this)
      (by
        intro tb te id h
        have := fd_find_token_nul_bound token_finder_ignore_case_comparer r.i_finder a [] ha 0
          (by omega) tb te id (by simpa using h)
        simpa using this)
      (by simp) (by simp)
  have hcur2 := hcurs c2 ic2 acc2 heq2big
  rw [find_and_replace, find_and_replace, far_events, far_events]
  have hne1 : ¬ (a ++ 0 :: b).length = 0 := by omega
  have hne2 : ¬ (a ++ [0]).length = 0 := by omega
  rw [if_neg hne1, if_neg hne2]
  rw [hf0, hif0, hbig_eq, heq2big, heq2]
  dsimp only
  have hlast_le : (if c2.current < ic2.current then ic2.current else c2.current) ≤ a.length := by
    split <;> omega
  have hlt1 : (if c2.current < ic2.current then ic2.current else c2.current) < (a ++ 0 :: b).length := by
    omega
  have hlt2 : (if c2.current < ic2.current then ic2.current else c2.current) < (a ++ [0]).length := by
    omega
  rw [if_pos hlt1, if_pos hlt2]
  have hmapeq : acc2.map (render (a ++ 0 :: b)) = acc2.map (render (a ++ [0])) := by
    refine List.map_eq_map_iff.mpr ?_
    intro ev hev
    cases ev with
    | replacement bb ee t => rfl
    | literal bb ee =>
      have hbounds := tiles_mem_bounds acc2 0 _ ht _ hev
      have hee : ee ≤ a.length := by
        have h1 := hbounds.2.2
        simp only [ev_end] at h1
        omega
      rw [render, render]
      exact nul_slice a (0 :: b) [0] bb ee hee
  have hdrop1 : (a ++ 0 :: b).drop (if c2.current < ic2.current then ic2.current else c2.current) =
      a.drop (if c2.current < ic2.current then ic2.current else c2.current) ++ 0 :: b :=
    List.drop_append_of_le_length hlast_le
  have hdrop2 : (a ++ [0]).drop (if c2.current < ic2.current then ic2.current else c2.current) =
      a.drop (if c2.current < ic2.current then ic2.current else c2.current) ++ [0] :=
    List.drop_append_of_le_length hlast_le
  have htail1 : render (a ++ 0 :: b)
      (.literal (if c2.current < ic2.current then ic2.current else c2.current) (a ++ 0 :: b).length) =
      a.drop (if c2.current < ic2.current then ic2.current else c2.current) ++ 0 :: b := by
    rw [render, hdrop1]
    refine List.take_of_length_le ?_
    simp
    omega
  have htail2 : render (a ++ [0])
      (.literal (if c2.current < ic2.current then ic2.current else c2.current) (a ++ [0]).length) =
      a.drop (if c2.current < ic2.current then ic2.current else c2.current) ++ [0] := by
    rw [render, hdrop2]
    refine List.take_of_length_le ?_
    simp
    omega
  rw [List.map_append, List.map_append, List.flatten_append, List.flatten_append, hmapeq]
  rw [List.map_cons, List.map_nil, List.map_cons, List.map_nil, htail1, htail2]
  simp [List.append_assoc]

/-- The replacer with exact `ab → X` installed, for C4. -/
def c4_replacer : case_preserve_replacer :=
  (add_replacement empty_replacer [97, 98] [88] case_mode.match_case false).toOption.getD
    empty_replacer

/-- Witness for the amended C4 theorem at a concrete buffer with an embedded
zero. -/
theorem scan_stops_at_first_nul_witness :
    find_and_replace c4_replacer ([97, 98] ++ 0 :: [97, 98]) =
      find_and_replace c4_replacer ([97, 98] ++ [0]) ++ [97, 98] :=
  scan_stops_at_first_nul c4_replacer [97, 98] [97, 98] (by decide)

/-- C4 counterexample: with the rule `ab → X`, the occurrence of `ab` after the
embedded zero in `ab\0ab` (buffer of size 5) is not replaced — the output keeps
the raw bytes `ab` after the zero instead of the `X` the claim predicts. -/
theorem embedded_nul_not_replaced_cex :
    find_and_replace c4_replacer [97, 98, 0, 97, 98] = [88, 0, 97, 98] ∧
    ([88, 0, 97, 98] : List Nat) ≠ [88, 0, 88] :=
  ⟨by decide, by decide⟩

/-! ### C5: the splitter on `oneTwo3Four` -/

/-- The replacer with the preserve-case rule `oneTwo3Four → five 6 seven`, the
rule of the repository's `Name number mix 2` unit test. -/
def c5_replacer : case_preserve_replacer :=
  (add_replacement empty_replacer
      [111, 110, 101, 84, 119, 111, 51, 70, 111, 117, 114]
      [102, 105, 118, 101, 32, 54, 32, 115, 101, 118, 101, 110]
      case_mode.preserve_case false).toOption.getD empty_replacer

/-- C5: the code evaluated at the failing input.  `split_text` separates
`oneTwo3Four` into `[one, Two3Four]` — there is no boundary between `3` and
`F` because `islower('3')` is false — not into the `[one, Two3, Four]` that
the spec and the repository's own `Name number mix 2` test expect.
Consequently the test's input `text one_two3_four` contains no installed
rendering and is returned unchanged instead of becoming
`text five_6_seven`. -/
theorem split_text_oneTwo3Four_eval :
    split_text [111, 110, 101, 84, 119, 111, 51, 70, 111, 117, 114] =
      [[111, 110, 101], [84, 119, 111, 51, 70, 111, 117, 114]] ∧
    split_text [111, 110, 101, 84, 119, 111, 51, 70, 111, 117, 114] ≠
      [[111, 110, 101], [84, 119, 111, 51], [70, 111, 117, 114]] ∧
    find_and_replace c5_replacer
        [116, 101, 120, 116, 32, 111, 110, 101, 95, 116, 119, 111, 51, 95, 102, 111, 117, 114] =
      [116, 101, 120, 116, 32, 111, 110, 101, 95, 116, 119, 111, 51, 95, 102, 111, 117, 114] :=
  ⟨by decide, by decide, by decide⟩

/-! ### C6: the nine renderings against the spec's table -/

/-- Following the spec's table: `Capitalize(w)` upper-cases the first code unit
and lower-cases the remainder. -/
def spec_capitalize : List Nat → List Nat
  | [] => []
  | c :: cs => ascii_toupper c :: cs.map ascii_tolower

/-- Following the spec's table: words joined by a separator sequence. -/
def spec_join (sep : List Nat) : List (List Nat) → List Nat
  | [] => []
  | [w] => w
  | w :: w2 :: rest => w ++ sep ++ spec_join sep (w2 :: rest)

/-- Spec table row `normal`: words joined by a single space, each unchanged. -/
def spec_normal (ws : List (List Nat)) : List Nat := spec_join [32] ws

/-- Spec table row `camel`: `lower(w1)` then `Capitalize(wi)` for `i ≥ 2`. -/
def spec_camel : List (List Nat) → List Nat
  | [] => []
  | w :: rest => w.map ascii_tolower ++ (rest.map spec_capitalize).flatten

/-- Spec table row `pascal`: every word capitalized. -/
def spec_pascal (ws : List (List Nat)) : List Nat := (ws.map spec_capitalize).flatten

/-- Spec table row `lowercase`: words lowercased, concatenated. -/
def spec_lowercase (ws : List (List Nat)) : List Nat := (ws.map (List.map ascii_tolower)).flatten

/-- Spec table row `uppercase`: words uppercased, concatenated. -/
def spec_uppercase (ws : List (List Nat)) : List Nat := (ws.map (List.map ascii_toupper)).flatten

/-- Spec table row `lower_snake`: words lowercased, joined by `_`. -/
def spec_lower_snake (ws : List (List Nat)) : List Nat :=
  spec_join [95] (ws.map (List.map ascii_tolower))

/-- Spec table row `upper_snake`: words uppercased, joined by `_`. -/
def spec_upper_snake (ws : List (List Nat)) : List Nat :=
  spec_join [95] (ws.map (List.map ascii_toupper))

/-- Spec table row `lower_kebab`: words lowercased, joined by `-`. -/
def spec_lower_kebab (ws : List (List Nat)) : List Nat :=
  spec_join [45] (ws.map (List.map ascii_tolower))

/-- Spec table row `upper_kebab`: words uppercased, joined by `-`. -/
def spec_upper_kebab (ws : List (List Nat)) : List Nat :=
  spec_join [45] (ws.map (List.map ascii_toupper))

/-- Head form of `spec_join`. -/
theorem spec_join_cons (sep : List Nat) : ∀ (rest : List (List Nat)) (w : List Nat),
    spec_join sep (w :: rest) = w ++ (rest.map (fun v => sep ++ v)).flatten := by
  intro rest
  induction rest with
  | nil => intro w; simp [spec_join]
  | cons w2 rest2 ih =>
    intro w
    rw [spec_join, ih w2]
    simp

/-- The splitter never produces an empty word. -/
theorem split_text_go_no_empty : ∀ (t : List Nat) (cw : List Nat) (acc : List (List Nat)),
    ¬ [] ∈ acc → ¬ [] ∈ split_text_go cw acc t := by
  intro t
  induction t with
  | nil =>
    intro cw acc hacc
    rw [split_text_go]
    by_cases hcw : cw.isEmpty
    · simpa [hcw] using hacc
    · simp only [hcw]
      simp only [Bool.false_eq_true, if_false]
      intro hmem
      rcases List.mem_append.mp hmem with h1 | h2
      · exact hacc h1
      · simp at h2
        rw [h2] at hcw
        simp at hcw
  | cons x rest ih =>
    intro cw acc hacc
    rw [split_text_go]
    by_cases hdel : x = 32 || x = 45 || x = 95
    · rw [if_pos hdel]
      refine ih [] _ ?_
      by_cases hcw : cw.isEmpty
      · simpa [hcw] using hacc
      · simp only [hcw, Bool.false_eq_true, if_false]
        intro hmem
        rcases List.mem_append.mp hmem with h1 | h2
        · exact hacc h1
        · simp at h2
          rw [h2] at hcw
          simp at hcw
    · rw [if_neg hdel]
      by_cases hcc : !cw.isEmpty && ascii_islower (cw.getLastD 0) && ascii_isupper x
      · rw [if_pos hcc]
        refine ih [x] _ ?_
        intro hmem
        rcases List.mem_append.mp hmem with h1 | h2
        · exact hacc h1
        · simp at h2
          simp [h2] at hcc
      · rw [if_neg hcc]
        refine ih (cw ++ [x]) _ hacc

/-- Accumulator form of `to_normal_text`. -/
theorem to_normal_go_eq : ∀ (ws : List (List Nat)) (acc : List Nat), acc ≠ [] →
    ws.foldl (fun res w => (if res.isEmpty then res else res ++ [32]) ++ w) acc =
      acc ++ (ws.map (fun v => [32] ++ v)).flatten := by
  intro ws
  induction ws with
  | nil => intro acc _; simp
  | cons w rest ih =>
    intro acc hacc
    rw [List.foldl_cons]
    have hne : ¬ acc.isEmpty := by simpa [List.isEmpty_iff] using hacc
    simp only [hne, Bool.false_eq_true, if_false]
    rw [ih (acc ++ [32] ++ w) (by simp)]
    simp

/-- Accumulator form of `to_camel_case_go` after the first word. -/
theorem to_camel_go_eq : ∀ (ws : List (List Nat)) (acc : List Nat),
    (to_camel_case_go (acc, false) ws).1 = acc ++ (ws.map spec_capitalize).flatten := by
  intro ws
  induction ws with
  | nil => intro acc; simp [to_camel_case_go]
  | cons w rest ih =>
    intro acc
    cases w with
    | nil =>
      rw [to_camel_case_go]
      rw [ih acc]
      simp [spec_capitalize]
    | cons c cs =>
      rw [to_camel_case_go]
      rw [ih]
      simp [spec_capitalize]

/-- Accumulator form of `to_pascal_case`. -/
theorem to_pascal_go_eq : ∀ (ws : List (List Nat)) (acc : List Nat),
    ws.foldl
        (fun res w => match w with
          | [] => res
          | c :: cs => res ++ ascii_toupper c :: cs.map ascii_tolower) acc =
      acc ++ (ws.map spec_capitalize).flatten := by
  intro ws
  induction ws with
  | nil => intro acc; simp
  | cons w rest ih =>
    intro acc
    rw [List.foldl_cons]
    cases w with
    | nil => rw [ih]; simp [spec_capitalize]
    | cons c cs => rw [ih]; simp [spec_capitalize]

/-- Accumulator form of `to_lowercase` and `to_uppercase`. -/
theorem to_mapped_go_eq (f : Nat → Nat) : ∀ (ws : List (List Nat)) (acc : List Nat),
    ws.foldl (fun res w => res ++ w.map f) acc = acc ++ (ws.map (List.map f)).flatten := by
  intro ws
  induction ws with
  | nil => intro acc; simp
  | cons w rest ih => intro acc; rw [List.foldl_cons, ih]; simp

/-- Accumulator form of `to_separator_case_go` after the first word. -/
theorem to_separator_go_eq (sep : Nat) (f : Nat → Nat) : ∀ (ws : List (List Nat)) (acc : List Nat),
    (to_separator_case_go sep f (acc, false) ws).1 =
      acc ++ (ws.map (fun w => match w with
        | [] => []
        | c :: cs => sep :: f c :: cs.map f)).flatten := by
  intro ws
  induction ws with
  | nil => intro acc; simp [to_separator_case_go]
  | cons w rest ih =>
    intro acc
    cases w with
    | nil =>
      rw [to_separator_case_go]
      rw [ih acc]
      simp
    | cons c cs =>
      rw [to_separator_case_go]
      rw [ih]
      simp

/-- C6: word lists never contain an empty word (first conjunct: the splitter
cannot produce one), and on every non-empty list of non-empty words the nine
rendering functions produce exactly the strings of the spec's table. -/
theorem renderings_match_spec_table :
    (∀ t : List Nat, ¬ [] ∈ split_text t) ∧
    (∀ ws : List (List Nat), ws ≠ [] → (∀ w ∈ ws, w ≠ []) →
      to_normal_text ws = spec_normal ws ∧
      to_camel_case ws = spec_camel ws ∧
      to_pascal_case ws = spec_pascal ws ∧
      to_lowercase ws = spec_lowercase ws ∧
      to_uppercase ws = spec_uppercase ws ∧
      to_lower_snake_case ws = spec_lower_snake ws ∧
      to_upper_snake_case ws = spec_upper_snake ws ∧
      to_lower_kebab_case ws = spec_lower_kebab ws ∧
      to_upper_kebab_case ws = spec_upper_kebab ws) := by
  constructor
  · intro t
    exact split_text_go_no_empty t [] [] (by simp)
  · intro ws hne hw
    cases ws with
    | nil => exact absurd rfl hne
    | cons w rest =>
      cases hwc : w with
      | nil => exact absurd hwc (hw w (List.mem_cons_self w rest))
      | cons c cs =>
        subst hwc
        have hsep : ∀ (sep : Nat) (f : Nat → Nat),
            (to_separator_case_go sep f ([], true) ((c :: cs) :: rest)).1 =
              spec_join [sep] (((c :: cs) :: rest).map (List.map f)) := by
          intro sep f
          rw [to_separator_case_go]
          rw [to_separator_go_eq]
          rw [List.map_cons, spec_join_cons]
          simp only [List.map_map, List.nil_append]
          congr 1
          congr 1
          refine List.map_eq_map_iff.mpr ?_
          intro v hv
          cases hvc : v with
          | nil => exact absurd hvc (hw v (List.mem_cons_of_mem _ hv))
          | cons d ds => simp
        refine ⟨?_, ?_, ?_, ?_, ?_, ?_, ?_, ?_, ?_⟩
        · rw [to_normal_text, spec_normal, List.foldl_cons]
          simp only [List.isEmpty_nil, if_true, List.nil_append]
          rw [to_normal_go_eq rest (c :: cs) (by simp), spec_join_cons]
        · rw [to_camel_case, to_camel_case_go]
          rw [to_camel_go_eq]
          simp [spec_camel]
        · rw [to_pascal_case, to_pascal_go_eq]
          simp [spec_pascal]
        · rw [to_lowercase, to_mapped_go_eq]
          simp [spec_lowercase]
        · rw [to_uppercase, to_mapped_go_eq]
          simp [spec_uppercase]
        · rw [to_lower_snake_case, to_snake_case]
          exact hsep 95 ascii_tolower
        · rw [to_upper_snake_case, to_snake_case]
          exact hsep 95 ascii_toupper
        · rw [to_lower_kebab_case, to_kebab_case]
          exact hsep 45 ascii_tolower
        · rw [to_upper_kebab_case, to_kebab_case]
          exact hsep 45 ascii_toupper

/-- Witness for C6: the camel rendering of the word list `[one, Two]` matches
the spec's table. -/
theorem renderings_match_spec_table_witness :
    to_camel_case [[111, 110, 101], [84, 119, 111]] =
      spec_camel [[111, 110, 101], [84, 119, 111]] :=
  (renderings_match_spec_table.2 [[111, 110, 101], [84, 119, 111]]
    (by decide) (by decide)).2.1

/-! ### C7: the preserve-case round trip -/

/-- Soundness of the exact descent: a match spells a key present in the
tree. -/
theorem match_len_exact_sound : ∀ (t : List Nat) (entries : List search_tree_entry) (l id : Nat),
    match_len token_finder_default_comparer entries t = some (l, id) →
    tree_token entries (t.take l) id = true := by
  intro t
  induction t with
  | nil => intro entries l id h; simp [match_len] at h
  | cons c rest ih =>
    intro entries l id h
    rw [match_len] at h
    split at h
    · exact absurd h (by simp)
    · rename_i e hfe
      rw [find_entry_exact_eq] at hfe
      cases hs : split_at_char entries c with
      | none => rw [hs] at hfe; exact absurd hfe (by simp)
      | some pes =>
        obtain ⟨pre, e0, post⟩ := pes
        rw [hs] at hfe
        simp at hfe
        subst hfe
        split at h
        · rename_i li hml
          simp only [Option.some.injEq, Prod.mk.injEq] at h
          obtain ⟨hl, hid⟩ := h
          cases rest with
          | nil => simp [match_len] at hml
          | cons r1 rs =>
            obtain ⟨hge, _⟩ := match_len_bounds token_finder_default_comparer (r1 :: rs) _ li.1 li.2 hml
            have hih := ih e0.next_entries li.1 li.2 (by rw [hml])
            cases hli : li.1 with
            | zero => omega
            | succ m =>
              rw [hli] at hl
              rw [← hl, ← hid]
              show tree_token entries (c :: r1 :: List.take m rs) li.2 = true
              rw [tree_token, hs]
              rw [hli] at hih
              simpa using hih
        · rename_i hml
          cases hti : e0.token_id with
          | none => rw [hti] at h; exact absurd h (by simp)
          | some id0 =>
            rw [hti] at h
            simp at h
            obtain ⟨hl, hid⟩ := h
            rw [← hl]
            show tree_token entries [c] id = true
            rw [tree_token, hs]
            simp [hti, hid]

/-- A scan hit descends exactly at its begin offset. -/
theorem find_token_from_sound (cmp : Nat → Nat → Bool) (root : List search_tree_entry) :
    ∀ (s : List Nat) (b l id : Nat),
      find_token_from cmp root s = some (b, l, id) →
      match_len cmp root (s.drop b) = some (l, id) := by
  intro s
  induction s with
  | nil => intro b l id h; simp [find_token_from] at h
  | cons c rest ih =>
    intro b l id h
    rw [find_token_from] at h
    split at h
    · rename_i li hml
      simp only [Option.some.injEq, Prod.mk.injEq] at h
      obtain ⟨hb, hl, hid⟩ := h
      rw [← hb, ← hl, ← hid]
      simpa using hml
    · rename_i hml
      cases hrec : find_token_from cmp root rest with
      | none => rw [hrec] at h; exact absurd h (by simp)
      | some bli =>
        obtain ⟨b1, l1, id1⟩ := bli
        rw [hrec] at h
        simp at h
        obtain ⟨hb, hl, hid⟩ := h
        rw [← hb, ← hl, ← hid]
        rw [List.drop_succ_cons]
        exact ih b1 l1 id1 hrec

/-- Any candidate the retry loop returns originates in a raw scan hit at some
cursor position. -/
theorem fd_find_token_go_sound (cmp : Nat → Nat → Bool) (fd : token_finder_data) (full : List Nat) :
    ∀ (fuel cur tb te id : Nat),
      fd_find_token_go cmp fd full fuel cur = some (tb, te, id) →
      ∃ cur2 b l, find_token_from cmp fd.root ((full.drop cur2).takeWhile (fun c => c != 0)) = some (b, l, id) ∧
        tb = cur2 + b ∧ te = tb + l := by
  intro fuel
  induction fuel with
  | zero => intro cur tb te id h; simp [fd_find_token_go] at h
  | succ fuel ih =>
    intro cur tb te id h
    rw [fd_find_token_go] at h
    split at h
    · exact absurd h (by simp)
    · rename_i b l id0 hraw
      split at h
      · split at h
        · exact ih (cur + b + l) tb te id h
        · simp only [Option.some.injEq, Prod.mk.injEq] at h
          obtain ⟨h1, h2, h3⟩ := h
          exact ⟨cur, b, l, by rw [← h3]; exact hraw, by omega, by omega⟩
      · simp only [Option.some.injEq, Prod.mk.injEq] at h
        obtain ⟨h1, h2, h3⟩ := h
        exact ⟨cur, b, l, by rw [← h3]; exact hraw, by omega, by omega⟩

/-- Slicing inside the `takeWhile` prefix agrees with slicing the underlying
list. -/
theorem takeWhile_drop_take (p : Nat → Bool) : ∀ (l : List Nat) (b n : Nat),
    b + n ≤ (l.takeWhile p).length →
    ((l.takeWhile p).drop b).take n = (l.drop b).take n := by
  intro l
  induction l with
  | nil => intro b n h; simp
  | cons x xs ih =>
    intro b n h
    cases hp : p x with
    | false =>
      rw [List.takeWhile_cons, hp] at h
      simp at h
      obtain ⟨hb, hn⟩ := h
      subst hb
      subst hn
      simp
    | true =>
      rw [List.takeWhile_cons, hp] at h ⊢
      simp only [if_true] at h ⊢
      cases b with
      | zero =>
        cases n with
        | zero => simp
        | succ m =>
          simp only [List.drop_zero]
          show x :: (xs.takeWhile p).take m = x :: xs.take m
          have hm := ih 0 m (by simp only [List.length_cons] at h; simpa using Nat.le_of_succ_le_succ h)
          simpa using hm
      | succ b0 =>
        simp only [List.drop_succ_cons]
        refine ih b0 n ?_
        simp only [List.length_cons] at h
        omega

/-- The entry a raw-character walk selects at a level. -/
def midE (entries : List search_tree_entry) (d : Nat) : Option search_tree_entry :=
  (split_at_char entries d).map (fun pes => pes.2.1)

/-- `midE` on a cons cell. -/
theorem midE_cons (x : search_tree_entry) (xs : List search_tree_entry) (d : Nat) :
    midE (x :: xs) d = if x.character = d then some x else midE xs d := by
  rw [midE, split_at_char]
  by_cases h : x.character = d
  · simp [h]
  · simp only [h, if_false, midE]
    cases split_at_char xs d with
    | none => rfl
    | some pes => rfl

/-- `midE` on an append. -/
theorem midE_append : ∀ (xs ys : List search_tree_entry) (d : Nat),
    midE (xs ++ ys) d = match midE xs d with
      | some y => some y
      | none => midE ys d := by
  intro xs
  induction xs with
  | nil => intro ys d; rfl
  | cons x rest ih =>
    intro ys d
    rw [List.cons_append, midE_cons, midE_cons]
    by_cases h : x.character = d
    · simp [h]
    · simp only [h, if_false]
      exact ih ys d

/-- No match at a level without the character. -/
theorem midE_none (d : Nat) : ∀ (xs : List search_tree_entry), (∀ x ∈ xs, x.character ≠ d) →
    midE xs d = none := by
  intro xs
  induction xs with
  | nil => intro _; rfl
  | cons x rest ih =>
    intro hall
    rw [midE_cons]
    rw [if_neg (hall x (List.mem_cons_self x rest))]
    exact ih (fun y hy => hall y (List.mem_cons_of_mem x hy))

/-- `tree_token` characterized through the selected entry. -/
theorem tree_token_midE (entries : List search_tree_entry) (d : Nat) (k : List Nat) (i : Nat) :
    tree_token entries (d :: k) i =
      match midE entries d with
      | some e => match k with
        | [] => e.token_id == some i
        | _ :: _ => tree_token e.next_entries k i
      | none => false := by
  cases k with
  | nil =>
    rw [tree_token, midE]
    cases split_at_char entries d with
    | none => rfl
    | some pes => rfl
  | cons k1 krest =>
    rw [tree_token, midE]
    cases split_at_char entries d with
    | none => rfl
    | some pes => rfl

/-- The trie with no entries holds no keys. -/
theorem tree_token_nil : ∀ (k : List Nat) (i : Nat), tree_token [] k i = false := by
  intro k i
  cases k with
  | nil => rfl
  | cons d rest =>
    rw [tree_token_midE]
    rfl

/-- Shape of a successful level split. -/
theorem split_spec (c : Nat) : ∀ (entries pre post : List search_tree_entry) (e : search_tree_entry),
    split_at_char entries c = some (pre, e, post) →
    entries = pre ++ e :: post ∧ e.character = c := by
  intro entries
  induction entries with
  | nil => intro pre post e h; simp [split_at_char] at h
  | cons x rest ih =>
    intro pre post e h
    rw [split_at_char] at h
    by_cases hx : x.character = c
    · rw [if_pos hx] at h
      simp at h
      obtain ⟨h1, h2, h3⟩ := h
      subst h1
      subst h2
      subst h3
      exact ⟨by simp, hx⟩
    · rw [if_neg hx] at h
      cases hs : split_at_char rest c with
      | none => rw [hs] at h; exact absurd h (by simp)
      | some pes =>
        obtain ⟨p1, y, s1⟩ := pes
        rw [hs] at h
        simp at h
        obtain ⟨h1, h2, h3⟩ := h
        obtain ⟨ih1, ih2⟩ := ih p1 s1 y hs
        subst h1
        subst h2
        subst h3
        constructor
        · rw [List.cons_append, ← ih1]
        · exact ih2

/-- Everything present after an insertion was present before, except the
inserted key itself. -/
theorem add_token_tree_sound : ∀ (key : List Nat) (entries entries2 : List search_tree_entry) (id : Nat),
    add_token_tree entries key id = Except.ok entries2 →
    ∀ (k : List Nat) (i : Nat), tree_token entries2 k i = true →
      tree_token entries k i = true ∨ (k = key ∧ i = id) := by
  intro key
  induction key with
  | nil =>
    intro entries entries2 id hadd k i htok
    rw [add_token_tree] at hadd
    simp at hadd
    left
    rw [hadd]
    exact htok
  | cons c tail ih =>
    intro entries entries2 id hadd k i htok
    cases tail with
    | nil =>
      rw [add_token_tree] at hadd
      cases hs : split_at_char entries c with
      | some pes =>
        obtain ⟨pre, e, post⟩ := pes
        rw [hs] at hadd
        dsimp only at hadd
        cases hti : e.token_id with
        | some old => rw [hti] at hadd; exact absurd hadd (by simp)
        | none =>
          rw [hti] at hadd
          simp at hadd
          obtain ⟨hsplit_eq, hchar⟩ := split_spec c entries pre post e hs
          cases k with
          | nil => rw [show tree_token entries2 [] i = false from rfl] at htok; exact absurd htok (by simp)
          | cons d k' =>
            rw [tree_token_midE, ← hadd, midE_append] at htok
            cases hm : midE pre d with
            | some y =>
              rw [hm] at htok
              left
              rw [tree_token_midE, hsplit_eq, midE_append, hm]
              exact htok
            | none =>
              rw [hm] at htok
              dsimp only at htok
              rw [midE_cons] at htok
              by_cases hd : e.character = d
              · have hd2 : (search_tree_entry.mk e.character (some id) e.next_entries).character = d := hd
                rw [if_pos hd2] at htok
                dsimp only at htok
                cases k' with
                | nil =>
                  simp [search_tree_entry.token_id] at htok
                  right
                  constructor
                  · rw [show d = c from by rw [← hd, hchar]]
                  · omega
                | cons k1 krest =>
                  left
                  rw [tree_token_midE, hsplit_eq, midE_append, hm, midE_cons, if_pos hd]
                  exact htok
              · have hd2 : ¬ (search_tree_entry.mk e.character (some id) e.next_entries).character = d := hd
                rw [if_neg hd2] at htok
                left
                rw [tree_token_midE, hsplit_eq, midE_append, hm, midE_cons, if_neg hd]
                exact htok
      | none =>
        rw [hs] at hadd
        dsimp only at hadd
        simp at hadd
        cases k with
        | nil => rw [show tree_token entries2 [] i = false from rfl] at htok; exact absurd htok (by simp)
        | cons d k' =>
          rw [tree_token_midE, ← hadd, midE_append] at htok
          cases hm : midE entries d with
          | some y =>
            rw [hm] at htok
            dsimp only at htok
            left
            rw [tree_token_midE, hm]
            exact htok
          | none =>
            rw [hm] at htok
            dsimp only at htok
            rw [midE_cons] at htok
            by_cases hd : c = d
            · have hd2 : (search_tree_entry.mk c (some id) []).character = d := hd
              rw [if_pos hd2] at htok
              dsimp only at htok
              cases k' with
              | nil =>
                simp [search_tree_entry.token_id] at htok
                right
                constructor
                · rw [← hd]
                · omega
              | cons k1 krest =>
                rw [show (search_tree_entry.mk c (some id) []).next_entries = [] from rfl] at htok
                rw [tree_token_nil] at htok
                exact absurd htok (by simp)
            · have hd2 : ¬ (search_tree_entry.mk c (some id) []).character = d := hd
              rw [if_neg hd2] at htok
              rw [show midE [] d = none from rfl] at htok
              exact absurd htok (by simp)
    | cons c2 rest =>
      rw [add_token_tree] at hadd
      cases hs : split_at_char entries c with
      | some pes =>
        obtain ⟨pre, e, post⟩ := pes
        rw [hs] at hadd
        dsimp only at hadd
        cases hrec : add_token_tree e.next_entries (c2 :: rest) id with
        | error err => rw [hrec] at hadd; exact absurd hadd (by simp [Except.map])
        | ok next2 =>
          rw [hrec] at hadd
          simp [Except.map] at hadd
          obtain ⟨hsplit_eq, hchar⟩ := split_spec c entries pre post e hs
          cases k with
          | nil => rw [show tree_token entries2 [] i = false from rfl] at htok; exact absurd htok (by simp)
          | cons d k' =>
            rw [tree_token_midE, ← hadd, midE_append] at htok
            cases hm : midE pre d with
            | some y =>
              rw [hm] at htok
              left
              rw [tree_token_midE, hsplit_eq, midE_append, hm]
              exact htok
            | none =>
              rw [hm] at htok
              dsimp only at htok
              rw [midE_cons] at htok
              by_cases hd : e.character = d
              · have hd2 : (search_tree_entry.mk e.character e.token_id next2).character = d := hd
                rw [if_pos hd2] at htok
                dsimp only at htok
                cases k' with
                | nil =>
                  left
                  rw [tree_token_midE, hsplit_eq, midE_append, hm, midE_cons, if_pos hd]
                  exact htok
                | cons k1 krest =>
                  rcases ih e.next_entries next2 id hrec (k1 :: krest) i htok with hleft | hright
                  · left
                    rw [tree_token_midE, hsplit_eq, midE_append, hm, midE_cons, if_pos hd]
                    exact hleft
                  · right
                    obtain ⟨hk, hi⟩ := hright
                    constructor
                    · rw [hk, show d = c from by rw [← hd, hchar]]
                    · exact hi
              · have hd2 : ¬ (search_tree_entry.mk e.character e.token_id next2).character = d := hd
                rw [if_neg hd2] at htok
                left
                rw [tree_token_midE, hsplit_eq, midE_append, hm, midE_cons, if_neg hd]
                exact htok
      | none =>
        rw [hs] at hadd
        dsimp only at hadd
        cases hrec : add_token_tree [] (c2 :: rest) id with
        | error err => rw [hrec] at hadd; exact absurd hadd (by simp [Except.map])
        | ok sub =>
          rw [hrec] at hadd
          simp [Except.map] at hadd
          cases k with
          | nil => rw [show tree_token entries2 [] i = false from rfl] at htok; exact absurd htok (by simp)
          | cons d k' =>
            rw [tree_token_midE, ← hadd, midE_append] at htok
            cases hm : midE entries d with
            | some y =>
              rw [hm] at htok
              dsimp only at htok
              left
              rw [tree_token_midE, hm]
              exact htok
            | none =>
              rw [hm] at htok
              dsimp only at htok
              rw [midE_cons] at htok
              by_cases hd : c = d
              · have hd2 : (search_tree_entry.mk c none sub).character = d := hd
                rw [if_pos hd2] at htok
                dsimp only at htok
                cases k' with
                | nil =>
                  simp [search_tree_entry.token_id] at htok
                | cons k1 krest =>
                  rcases ih [] sub id hrec (k1 :: krest) i htok with hleft | hright
                  · rw [tree_token_nil] at hleft
                    exact absurd hleft (by simp)
                  · right
                    obtain ⟨hk, hi⟩ := hright
                    constructor
                    · rw [hk, ← hd]
                    · exact hi
              · have hd2 : ¬ (search_tree_entry.mk c none sub).character = d := hd
                rw [if_neg hd2] at htok
                rw [show midE [] d = none from rfl] at htok
                exact absurd htok (by simp)

/-- Every key present in the pattern set owns a valid rule id whose stored
replacement text equals the key itself. -/
def good_fd (fd : token_finder_data) : Prop :=
  ∀ (key : List Nat) (id : Nat), tree_token fd.root key id = true →
    id < fd.replacement_entries.length ∧
    (fd.replacement_entries.getD id default).replacement_text = key

/-- The empty pattern set trivially satisfies `good_fd`. -/
theorem good_fd_empty : good_fd empty_finder := by
  intro key id htok
  rw [show empty_finder.root = [] from rfl, tree_token_nil] at htok
  exact absurd htok (by simp)

/-- Inserting a key whose replacement equals the key preserves `good_fd`. -/
theorem fd_add_token_good (fd fd2 : token_finder_data) (key : List Nat) (ww flag : Bool)
    (hadd : fd_add_token token_finder_default_comparer fd key key ww = .ok (fd2, flag))
    (hgood : good_fd fd) : good_fd fd2 := by
  rw [fd_add_token] at hadd
  have hins : ∀ (hadd2 : (add_token_tree fd.root key fd.replacement_entries.length).map
      (fun root2 => ((⟨root2, fd.replacement_entries ++ [⟨key, ww⟩]⟩ : token_finder_data), true)) =
      .ok (fd2, flag)), good_fd fd2 := by
    intro hadd2
    cases hrec : add_token_tree fd.root key fd.replacement_entries.length with
    | error err => rw [hrec] at hadd2; exact absurd hadd2 (by simp [Except.map])
    | ok root2 =>
      rw [hrec] at hadd2
      simp [Except.map] at hadd2
      obtain ⟨h1, _⟩ := hadd2
      intro k i htok
      rw [← h1] at htok
      rcases add_token_tree_sound key fd.root root2 fd.replacement_entries.length hrec k i htok with hleft | hright
      · obtain ⟨hlt, heq⟩ := hgood k i hleft
        rw [← h1]
        constructor
        · simp
          omega
        · rw [show (⟨root2, fd.replacement_entries ++ [⟨key, ww⟩]⟩ : token_finder_data).replacement_entries
              = fd.replacement_entries ++ [⟨key, ww⟩] from rfl]
          rw [List.getD_append _ _ _ _ hlt]
          exact heq
      · obtain ⟨hk, hi⟩ := hright
        rw [← h1]
        constructor
        · simp
          omega
        · rw [show (⟨root2, fd.replacement_entries ++ [⟨key, ww⟩]⟩ : token_finder_data).replacement_entries
              = fd.replacement_entries ++ [⟨key, ww⟩] from rfl]
          rw [hi]
          rw [List.getD_append_right _ _ _ _ (le_refl _)]
          simp [hk]
  cases hprobe : find_token_from token_finder_default_comparer fd.root key with
  | some bli =>
    obtain ⟨b, l, id0⟩ := bli
    rw [hprobe] at hadd
    dsimp only at hadd
    by_cases hfull : b = 0 ∧ b + l = key.length
    · rw [if_pos hfull] at hadd
      simp at hadd
      obtain ⟨h1, _⟩ := hadd
      rw [← h1]
      exact hgood
    · rw [if_neg hfull] at hadd
      by_cases hk : key = []
      · rw [if_pos hk] at hadd
        exact absurd hadd (by simp)
      · rw [if_neg hk] at hadd
        exact hins hadd
  | none =>
    rw [hprobe] at hadd
    dsimp only at hadd
    by_cases hk : key = []
    · rw [if_pos hk] at hadd
      exact absurd hadd (by simp)
    · rw [if_neg hk] at hadd
      exact hins hadd

/-- A failed variant chain stays failed. -/
theorem add_variant_error (ww : Bool) : ∀ (pairs : List (List Nat × List Nat)) (e : rep_error),
    pairs.foldl (fun acc kv => add_variant acc kv ww) (.error e) = .error e := by
  intro pairs
  induction pairs with
  | nil => intro e; rfl
  | cons kv rest ih =>
    intro e
    rw [List.foldl_cons]
    rw [show add_variant (.error e) kv ww = .error e from rfl]
    exact ih e

/-- A chain of variant insertions with key-equal replacements preserves
`good_fd`. -/
theorem variants_good (ww : Bool) : ∀ (pairs : List (List Nat × List Nat)) (fd0 fd1 : token_finder_data),
    (∀ kv ∈ pairs, kv.1 = kv.2) → good_fd fd0 →
    pairs.foldl (fun acc kv => add_variant acc kv ww) (.ok fd0) = .ok fd1 → good_fd fd1 := by
  intro pairs
  induction pairs with
  | nil =>
    intro fd0 fd1 _ hgood hfold
    simp at hfold
    rw [← hfold]
    exact hgood
  | cons kv rest ih =>
    intro fd0 fd1 hkv hgood hfold
    rw [List.foldl_cons] at hfold
    rw [add_variant] at hfold
    cases hstep : fd_add_token token_finder_default_comparer fd0 kv.1 kv.2 ww with
    | error e =>
      rw [hstep] at hfold
      rw [add_variant_error] at hfold
      exact absurd hfold (by simp)
    | ok p =>
      rw [hstep] at hfold
      have hkey : kv.1 = kv.2 := hkv kv (List.mem_cons_self kv rest)
      rw [hkey] at hstep
      have hgood2 : good_fd p.1 := fd_add_token_good fd0 p.1 kv.2 ww p.2 (by rw [hstep]) hgood
      exact ih p.1 fd1 (fun kv2 h2 => hkv kv2 (List.mem_cons_of_mem kv h2)) hgood2 hfold

/-- Elements of a self-zip are reflexive pairs. -/
theorem zip_self_eq : ∀ (l : List (List Nat)) (kv : List Nat × List Nat), kv ∈ l.zip l → kv.1 = kv.2 := by
  intro l
  induction l with
  | nil => intro kv h; simp at h
  | cons x rest ih =>
    intro kv h
    rw [List.zip_cons_cons] at h
    rcases List.mem_cons.mp h with h1 | h2
    · rw [h1]
    · exact ih kv h2

/-- On a good pattern set, every candidate the finder reports carries a
replacement text equal to the matched slice of the input. -/
theorem good_fd_find_faithful (fd : token_finder_data) (full : List Nat)
    (hgood : good_fd fd) (cur tb te id : Nat)
    (h : fd_find_token token_finder_default_comparer fd full cur = some (tb, te, id)) :
    (fd.replacement_entries.getD id default).replacement_text = (full.drop tb).take (te - tb) := by
  obtain ⟨cur2, b, l, hraw, htb, hte⟩ :=
    fd_find_token_go_sound token_finder_default_comparer fd full _ cur tb te id h
  have hml := find_token_from_sound token_finder_default_comparer fd.root _ b l id hraw
  have hbl := find_token_from_bounds token_finder_default_comparer fd.root _ b l id hraw
  have htok := match_len_exact_sound _ fd.root l id hml
  have hg := hgood _ id htok
  have hslice : ((((full.drop cur2).takeWhile (fun c => c != 0)).drop b).take l : List Nat)
      = ((full.drop cur2).drop b).take l :=
    takeWhile_drop_take _ (full.drop cur2) b l hbl.2
  rw [hg.2, hslice, List.drop_drop]
  have h1 : cur2 + b = tb := by omega
  have h2 : te - tb = l := by omega
  rw [h1, h2]

/-- An event is faithful when a replacement event's text equals the slice of
the input it replaces. -/
def ev_faithful (full : List Nat) : sink_event → Prop
  | .literal _ _ => True
  | .replacement b e t => t = (full.drop b).take (e - b)

/-- A context is faithful when its cached candidate's rule carries a
replacement text equal to the matched slice. -/
def ctx_faithful (fd : token_finder_data) (full : List Nat) (x : search_context) : Prop :=
  ∀ tb te id, x.token = some (tb, te, id) →
    (fd.replacement_entries.getD id default).replacement_text = (full.drop tb).take (te - tb)


/-- A token surviving `advance_current_to` was already cached and starts at or
after the new cursor. -/
theorem advance_token_eq (x : search_context) (n tb te id : Nat)
    (h : (advance_current_to x n).token = some (tb, te, id)) :
    x.token = some (tb, te, id) ∧ n ≤ tb := by
  rw [advance_current_to] at h
  dsimp only at h
  split at h
  · rename_i a b c heq
    split at h
    · exact absurd h (by simp)
    · rename_i hge
      simp at h
      obtain ⟨h1, h2, h3⟩ := h
      subst h1
      subst h2
      subst h3
      exact ⟨heq, by omega⟩
  · exact absurd h (by simp)

/-- Appending a literal and a faithful replacement keeps the event list
faithful. -/
theorem ev_faithful_append (full : List Nat) (acc : List sink_event) (u v b e : Nat) (t : List Nat)
    (hacc : ∀ ev ∈ acc, ev_faithful full ev) (ht : t = (full.drop b).take (e - b)) :
    ∀ ev ∈ acc ++ [.literal u v, .replacement b e t], ev_faithful full ev := by
  intro ev hmem
  rcases List.mem_append.mp hmem with h1 | h2
  · exact hacc ev h1
  · rcases List.mem_cons.mp h2 with he | h2b
    · subst he
      show True
      exact True.intro
    · rcases List.mem_cons.mp h2b with he | h2c
      · subst he
        show t = (full.drop b).take (e - b)
        exact ht
      · simp at h2c

/-- If every find of either set is faithful, every event the loop accumulates
is faithful. -/
theorem far_loop_faithful (fd ifd : token_finder_data) (full : List Nat)
    (Hfd : ∀ cur tb te id, fd_find_token token_finder_default_comparer fd full cur = some (tb, te, id) →
      (fd.replacement_entries.getD id default).replacement_text = (full.drop tb).take (te - tb))
    (Hifd : ∀ cur tb te id, fd_find_token token_finder_ignore_case_comparer ifd full cur = some (tb, te, id) →
      (ifd.replacement_entries.getD id default).replacement_text = (full.drop tb).take (te - tb)) :
    ∀ (fuel : Nat) (c ic : search_context) (acc : List sink_event) (c2 ic2 : search_context) (acc2 : List sink_event),
      ctx_faithful fd full c → ctx_faithful ifd full ic → tok_inv full.length ic →
      (∀ ev ∈ acc, ev_faithful full ev) →
      far_loop fd ifd full fuel c ic acc = some (c2, ic2, acc2) →
      ∀ ev ∈ acc2, ev_faithful full ev := by
  intro fuel
  induction fuel with
  | zero => intro c ic acc c2 ic2 acc2 _ _ _ _ h; simp [far_loop] at h
  | succ fuel ih =>
    intro c ic acc c2 ic2 acc2 hcf hicf hicinv hacc h
    cases hc : c.token with
    | none =>
      cases hic : ic.token with
      | none =>
        rw [far_loop_step_exit fd ifd full fuel c ic acc hc hic] at h
        simp at h
        obtain ⟨_, _, h3⟩ := h
        rw [← h3]
        exact hacc
      | some tti =>
        obtain ⟨itb, ite, iid⟩ := tti
        rw [far_loop_step_fold_only fd ifd full fuel c ic acc itb ite iid hc hic] at h
        refine ih _ _ _ _ _ _ hcf ?_ ?_
          (ev_faithful_append full acc _ _ _ _ _ hacc (hicf itb ite iid hic)) h
        · intro tb te id hfind
          exact Hifd ite tb te id hfind
        · intro tb te id hfind
          exact fd_find_token_some token_finder_ignore_case_comparer ifd full ite tb te id hfind
    | some ttc =>
      obtain ⟨ctb, cte, cid⟩ := ttc
      cases hic : ic.token with
      | none =>
        rw [far_loop_step_exact_only fd ifd full fuel c ic acc ctb cte cid hc hic] at h
        refine ih _ _ _ _ _ _ ?_ hicf hicinv
          (ev_faithful_append full acc _ _ _ _ _ hacc (hcf ctb cte cid hc)) h
        intro tb te id hfind
        exact Hfd cte tb te id hfind
      | some tti =>
        obtain ⟨itb, ite, iid⟩ := tti
        by_cases hlt : ctb < itb
        · rw [far_loop_step_exact fd ifd full fuel c ic acc ctb cte cid itb ite iid hc hic hlt] at h
          refine ih _ _ _ _ _ _ ?_ ?_ ?_
            (ev_faithful_append full acc _ _ _ _ _ hacc (hcf ctb cte cid hc)) h
          · intro tb te id hfind
            exact Hfd cte tb te id hfind
          · by_cases hov : ctx_overlaps c ic = true
            · rw [if_pos hov]
              intro tb te id hfind
              exact Hifd cte tb te id hfind
            · rw [if_neg hov]
              intro tb te id hfind
              obtain ⟨hx, _⟩ := advance_token_eq ic cte tb te id hfind
              exact hicf tb te id hx
          · by_cases hov : ctx_overlaps c ic = true
            · rw [if_pos hov]
              intro tb te id hfind
              exact fd_find_token_some token_finder_ignore_case_comparer ifd full cte tb te id hfind
            · rw [if_neg hov]
              intro tb te id hfind
              obtain ⟨hx, hge⟩ := advance_token_eq ic cte tb te id hfind
              have hb := hicinv tb te id hx
              exact ⟨hge, hb.2.1, hb.2.2⟩
        · have hii : itb < ite := (hicinv itb ite iid hic).2.1
          rw [far_loop_step_fold fd ifd full fuel c ic acc ctb cte cid itb ite iid hc hic hlt hii] at h
          refine ih _ _ _ _ _ _ ?_ ?_ ?_
            (ev_faithful_append full acc _ _ _ _ _ hacc (hicf itb ite iid hic)) h
          · by_cases hov : ctx_overlaps c ic = true
            · rw [if_pos hov]
              intro tb te id hfind
              exact Hfd ite tb te id hfind
            · rw [if_neg hov]
              intro tb te id hfind
              obtain ⟨hx, _⟩ := advance_token_eq c ite tb te id hfind
              exact hcf tb te id hx
          · intro tb te id hfind
            exact Hifd ite tb te id hfind
          · intro tb te id hfind
            exact fd_find_token_some token_finder_ignore_case_comparer ifd full ite tb te id hfind

/-- Adjacent slices of the input concatenate to the covering slice. -/
theorem slice_concat (full : List Nat) (lo m hi : Nat) (h1 : lo ≤ m) (h2 : m ≤ hi) :
    (full.drop lo).take (m - lo) ++ (full.drop m).take (hi - m) = (full.drop lo).take (hi - lo) := by
  have hd : ((full.drop lo).drop (m - lo) : List Nat) = full.drop m := by
    rw [List.drop_drop]
    congr 1
    omega
  have hsplit : (hi - lo) = (m - lo) + (hi - m) := by omega
  rw [hsplit, List.take_add, hd]

/-- A faithful tiling renders to the covered slice of the input. -/
theorem tiles_faithful_flatten (full : List Nat) : ∀ (evs : List sink_event) (lo hi : Nat),
    tiles lo evs hi → (∀ ev ∈ evs, ev_faithful full ev) →
    ((evs.map (render full)).flatten : List Nat) = (full.drop lo).take (hi - lo) := by
  intro evs
  induction evs with
  | nil =>
    intro lo hi ht hf
    rw [tiles] at ht
    simp [ht]
  | cons ev rest ih =>
    intro lo hi ht hf
    rw [tiles] at ht
    obtain ⟨hb, hle, htr⟩ := ht
    have hmhi := tiles_le rest (ev_end ev) hi htr
    rw [List.map_cons, List.flatten_cons]
    rw [ih (ev_end ev) hi htr (fun e he => hf e (List.mem_cons_of_mem ev he))]
    have hr : render full ev = (full.drop lo).take (ev_end ev - lo) := by
      cases ev with
      | literal b e =>
        rw [render]
        rw [show ev_begin (.literal b e) = b from rfl] at hb
        rw [show ev_end (.literal b e) = e from rfl]
        rw [hb]
      | replacement b e t =>
        have h2 : t = (full.drop b).take (e - b) := hf _ (List.mem_cons_self _ rest)
        rw [render]
        rw [show ev_begin (.replacement b e t) = b from rfl] at hb
        rw [show ev_end (.replacement b e t) = e from rfl]
        rw [h2, hb]
    rw [hr]
    exact slice_concat full lo (ev_end ev) hi (by omega) hmhi

/-- A replacer whose exact set is good and whose fold set is empty rewrites
every input to itself. -/
theorem good_replacer_identity (fd : token_finder_data) (s : List Nat)
    (hgood : good_fd fd) :
    find_and_replace ⟨fd, empty_finder⟩ s = s := by
  have Hfd : ∀ cur tb te id, fd_find_token token_finder_default_comparer fd s cur = some (tb, te, id) →
      (fd.replacement_entries.getD id default).replacement_text = (s.drop tb).take (te - tb) :=
    fun cur tb te id h => good_fd_find_faithful fd s hgood cur tb te id h
  have Hifd : ∀ cur tb te id, fd_find_token token_finder_ignore_case_comparer empty_finder s cur = some (tb, te, id) →
      (empty_finder.replacement_entries.getD id default).replacement_text = (s.drop tb).take (te - tb) := by
    intro cur tb te id h
    rw [fd_find_token_empty] at h
    exact absurd h (by simp)
  have hfaith : ∀ ev ∈ far_events ⟨fd, empty_finder⟩ s, ev_faithful s ev := by
    rw [far_events]
    by_cases h0 : s.length = 0
    · rw [if_pos h0]
      intro ev h
      simp at h
    · rw [if_neg h0]
      dsimp only
      cases hloop : far_loop fd empty_finder s (2 * s.length + 2)
          ⟨0, fd_find_token token_finder_default_comparer fd s 0⟩
          ⟨0, fd_find_token token_finder_ignore_case_comparer empty_finder s 0⟩ [] with
      | none =>
        dsimp only
        intro ev h
        simp at h
      | some t =>
        obtain ⟨c2, ic2, acc2⟩ := t
        dsimp only
        have hall := far_loop_faithful fd empty_finder s Hfd Hifd (2 * s.length + 2)
          ⟨0, fd_find_token token_finder_default_comparer fd s 0⟩
          ⟨0, fd_find_token token_finder_ignore_case_comparer empty_finder s 0⟩ [] c2 ic2 acc2
          (fun tb te id h => Hfd 0 tb te id h)
          (fun tb te id h => Hifd 0 tb te id h)
          (fun tb te id h => fd_find_token_some token_finder_ignore_case_comparer empty_finder s 0 tb te id h)
          (by intro ev h; simp at h) hloop
        intro ev hmem
        have hlit : ∀ (u v : Nat), ev ∈ acc2 ++ [sink_event.literal u v] → ev_faithful s ev := by
          intro u v hm
          rcases List.mem_append.mp hm with h1 | h2
          · exact hall ev h1
          · rcases List.mem_cons.mp h2 with he | h2b
            · subst he
              show True
              exact True.intro
            · simp at h2b
        split at hmem
        · split at hmem
          · exact hlit _ _ hmem
          · exact hall ev hmem
        · split at hmem
          · exact hlit _ _ hmem
          · exact hall ev hmem
  have hflat := tiles_faithful_flatten s (far_events ⟨fd, empty_finder⟩ s) 0 s.length
    (far_events_tiles_full ⟨fd, empty_finder⟩ s) hfaith
  rw [find_and_replace, hflat]
  simp

/-- The replacer holding only the preserve-case rule ("one two", "one two"),
for the C7 witness. -/
def c7_r : case_preserve_replacer :=
  (add_replacement empty_replacer [111, 110, 101, 32, 116, 119, 111]
      [111, 110, 101, 32, 116, 119, 111] case_mode.preserve_case false).toOption.getD
    empty_replacer

/-- C7: for every pattern `P` accepted by `add_replacement` (non-empty and
splitting into at least one word), a replacer holding only the rule
`(P, P, preserve_case)` satisfies `find_and_replace r s = s` for every input
`s` — in particular for inputs containing `P` in any of the nine canonical
renderings. -/
theorem preserve_case_round_trip (P : List Nat) (ww : Bool) (r : case_preserve_replacer) (s : List Nat)
    (hadd : add_replacement empty_replacer P P case_mode.preserve_case ww = .ok r) :
    find_and_replace r s = s := by
  rw [add_replacement] at hadd
  by_cases hPe : P.isEmpty
  · rw [if_pos hPe] at hadd
    exact absurd hadd (by simp)
  · rw [if_neg hPe] at hadd
    dsimp only at hadd
    by_cases hwe : (split_text P).isEmpty
    · rw [if_pos hwe] at hadd
      exact absurd hadd (by simp)
    · rw [if_neg hwe] at hadd
      cases hfold : ((render_list (split_text P)).zip (render_list (split_text P))).foldl
          (fun acc kv => add_variant acc kv ww) (.ok empty_replacer.finder) with
      | error e =>
        rw [hfold] at hadd
        exact absurd hadd (by simp [Except.map])
      | ok fd =>
        rw [hfold] at hadd
        simp [Except.map] at hadd
        have hgood : good_fd fd := variants_good ww _ empty_replacer.finder fd
          (zip_self_eq (render_list (split_text P))) good_fd_empty hfold
        rw [← hadd]
        exact good_replacer_identity fd s hgood

/-- C7 witness: the rule ("one two", "one two", preserve_case) leaves the
input "xOneTwo one" unchanged. -/
theorem preserve_case_round_trip_witness :
    find_and_replace c7_r [120, 79, 110, 101, 84, 119, 111, 32, 111, 110, 101] =
      [120, 79, 110, 101, 84, 119, 111, 32, 111, 110, 101] :=
  preserve_case_round_trip [111, 110, 101, 32, 116, 119, 111] false c7_r
    [120, 79, 110, 101, 84, 119, 111, 32, 111, 110, 101] rfl
